import Mathlib

/-!
Shallow embedding of the EPICS base resource table
(`src/libCom/cxxTemplates/resourceLib.h`): a generic hash table with
incremental (linear-hashing) growth, together with the identifier
variants supplied there (`intId`-style integer hashing, the
chronological-id table, and `stringId`).

Entries of type `T` derive from their identifier type `ID`, and the table
itself only ever inspects an entry through its identifier; an entry is
therefore represented by its identifier value, with `[DecidableEq ID]`
playing the role of `ID::operator ==` and an explicit `idHash : ID → Nat`
playing the role of `ID::hash ()`.  Machine unsigned arithmetic is
represented by `Nat`; the one place where 32-bit wraparound is
semantically relevant (`chronIntIdResTable::allocId`) takes an explicit
`% 2 ^ 32`.

The bucket chains use `tsSLList`, whose source file is not part of this
repository snapshot.  Modelled from the spec: a bucket is "an intrusive,
ordered sequence of resident entries sharing a bucket index", the split
"takes the single bucket" and redistributes its entries, and growth
"migrates live buckets into" the new storage.  Accordingly a bucket chain
is a `List ID`; `tsSLList::add` pushes at the front, `tsSLList::get` pops
the front, the `tsSLList` copy constructor moves the nodes out of its
source (leaving it empty), `tsSLList::remove (before)` unlinks the
successor of `before`, and iteration walks front to back.

Allocation (`operator new` for the bucket array) is modelled by a boolean
oracle `allocOk`; a propagated `bad_alloc` is the `none` result.
-/

set_option linter.unusedSectionVars false

namespace ResourceLib

variable {ID : Type} [DecidableEq ID]

/-- State of `resTable<T, ID>` (resourceLib.h lines 100-132).  `pTable` is
`none` while no bucket array has ever been allocated; otherwise it holds
the backing array of `1 << logBaseTwoTableSize` bucket chains. -/
structure ResTable (ID : Type) where
  pTable : Option (List (List ID))
  nextSplitIndex : Nat
  hashIxMask : Nat
  hashIxSplitMask : Nat
  nBitsHashIxSplitMask : Nat
  logBaseTwoTableSize : Nat
  nInUse : Nat
  deriving DecidableEq

/-- The `resTable ()` constructor (lines 258-262): null table, all
counters zero. -/
def ResTable.initial : ResTable ID := ⟨none, 0, 0, 0, 0, 0, 0⟩

/-- `resTableBitMask` (lines 264-268): `(1 << nBits) - 1`. -/
def resTableBitMask (nBits : Nat) : Nat := (1 <<< nBits) - 1

/-- `resTable::hash` (lines 323-332): mask the identifier's raw hash to
the pre-split range; buckets below `nextSplitIndex` have already been
split this generation and use the wider mask. -/
def ResTable.hash (idHash : ID → Nat) (t : ResTable ID) (idIn : ID) : Nat :=
  let h := idHash idIn
  let h0 := h &&& t.hashIxMask
  if t.nextSplitIndex ≤ h0 then h0 else h &&& t.hashIxSplitMask

/-- `resTable::tableSize` (lines 477-486): the logical capacity
`(hashIxMask + 1) + nextSplitIndex`, or 0 before the first allocation. -/
def ResTable.tableSize (t : ResTable ID) : Nat :=
  match t.pTable with
  | some _ => (t.hashIxMask + 1) + t.nextSplitIndex
  | none => 0

/-- `resTable::numEntriesInstalled` (lines 471-475). -/
def ResTable.numEntriesInstalled (t : ResTable ID) : Nat := t.nInUse

/-- `resTable::find` (lines 635-647): scan a bucket chain front to back
for the first entry whose identifier equals `idIn`. -/
def ResTable.find (list : List ID) (idIn : ID) : Option ID :=
  list.find? fun x => decide (x = idIn)

/-- `resTable::lookup` (lines 308-318). -/
def ResTable.lookup (idHash : ID → Nat) (t : ResTable ID) (idIn : ID) : Option ID :=
  match t.pTable with
  | some buckets => ResTable.find (buckets.getD (t.hash idHash idIn) []) idIn
  | none => none

/-- The bucket scan of `resTable::remove` (lines 280-297): unlink and
return the first entry equal to `idIn` (via `tsSLList::get` when it is
the head, `tsSLList::remove (prev)` otherwise); the chain is untouched
when nothing matches. -/
def listRemoveFirst : List ID → ID → Option ID × List ID
  | [], _ => (none, [])
  | x :: xs, idIn =>
    if x = idIn then (some x, xs)
    else
      let r := listRemoveFirst xs idIn
      (r.1, x :: r.2)

/-- `resTable::remove` (lines 275-303).  `nInUse--` is C unsigned
decrement; it is taken only when a match was unlinked, and the count
invariant puts `nInUse ≥ 1` there, so `Nat` subtraction is exact. -/
def ResTable.remove (idHash : ID → Nat) (t : ResTable ID) (idIn : ID) :
    Option ID × ResTable ID :=
  match t.pTable with
  | some buckets =>
    let i := t.hash idHash idIn
    let r := listRemoveFirst (buckets.getD i []) idIn
    match r.1 with
    | some x =>
      (some x, { t with pTable := some (buckets.set i r.2), nInUse := t.nInUse - 1 })
    | none => (none, t)
  | none => (none, t)

/-- `resTable::setTableSizePrivate` (lines 512-572).  `allocOk` says
whether `operator new` for the new bucket array succeeds; the `none`
result is the rethrown allocation failure of line 538 (table still
empty).  On success the first `tableSize ()` chains are moved into the
new array (the `tsSLList` copy constructor moves) and the remaining new
chains are default-constructed empty; the addressing masks are
initialized only when this is the very first allocation. -/
def ResTable.setTableSizePrivate (allocOk : Bool) (t : ResTable ID)
    (logBaseTwoTableSizeIn : Nat) : Option (Bool × ResTable ID) :=
  if logBaseTwoTableSizeIn ≤ t.logBaseTwoTableSize then some (true, t)
  else
    let logIn := if logBaseTwoTableSizeIn < 4 then 4 else logBaseTwoTableSizeIn
    let newTableSize := 1 <<< logIn
    let oldTableOccupiedSize := t.tableSize
    if allocOk then
      let oldBuckets := t.pTable.getD []
      let pNewTable :=
        oldBuckets.take oldTableOccupiedSize ++
          List.replicate (newTableSize - oldTableOccupiedSize) []
      let t1 :=
        match t.pTable with
        | none =>
          { t with hashIxSplitMask := resTableBitMask logIn,
                   nBitsHashIxSplitMask := logIn,
                   hashIxMask := resTableBitMask logIn >>> 1,
                   nextSplitIndex := 0 }
        | some _ => t
      some (true, { t1 with pTable := some pNewTable,
                            logBaseTwoTableSize := logIn })
    else
      match t.pTable with
      | none => none
      | some _ => some (false, t)

/-- The redistribution loop of `resTable::splitBucket` (lines 594-599):
pop each entry of the detached chain in order and push it onto the bucket
its identifier hashes to.  The bucket-index function is constant during
the loop; the loop mutates only the bucket array, which `hash` never
reads. -/
def distribute (g : ID → Nat) : List (List ID) → List ID → List (List ID)
  | bs, [] => bs
  | bs, x :: rest => distribute g (bs.set (g x) (x :: bs.getD (g x) [])) rest

/-- Lines 591-599 of `resTable::splitBucket`: detach the chain at
`nextSplitIndex` (the `tsSLList` copy constructor moves the nodes out,
leaving that bucket empty), advance `nextSplitIndex`, then redistribute
the detached entries under the updated addressing state. -/
def ResTable.splitRehash (idHash : ID → Nat) (t : ResTable ID) : ResTable ID :=
  let bs := t.pTable.getD []
  let tmp := bs.getD t.nextSplitIndex []
  let t1 := { t with pTable := some (bs.set t.nextSplitIndex []),
                     nextSplitIndex := t.nextSplitIndex + 1 }
  { t1 with pTable := some (distribute (t1.hash idHash) (bs.set t.nextSplitIndex []) tmp) }

/-- `resTable::splitBucket` (lines 574-600): when a full generation of
splits has completed, first double the backing array (abandoning the
whole split when that allocation fails) and widen the masks; then rehash
the single bucket at `nextSplitIndex`. -/
def ResTable.splitBucket (idHash : ID → Nat) (allocOk : Bool) (t : ResTable ID) :
    Option (ResTable ID) :=
  if t.hashIxMask < t.nextSplitIndex then
    match t.setTableSizePrivate allocOk (t.nBitsHashIxSplitMask + 1) with
    | none => none
    | some (success, t1) =>
      if success then
        let nb := t1.nBitsHashIxSplitMask + 1
        some (ResTable.splitRehash idHash
          { t1 with nBitsHashIxSplitMask := nb,
                    hashIxSplitMask := resTableBitMask nb,
                    hashIxMask := resTableBitMask nb >>> 1,
                    nextSplitIndex := 0 })
      else some t1
  else some (t.splitRehash idHash)

/-- Lines 618-624 of `resTable::add`: the duplicate check against the
target bucket followed by the front insertion (`tsSLList::add`). -/
def ResTable.addCore (idHash : ID → Nat) (t : ResTable ID) (res : ID) :
    Int × ResTable ID :=
  let bs := t.pTable.getD []
  let i := t.hash idHash res
  let list := bs.getD i []
  if (ResTable.find list res).isSome then (-1, t)
  else (0, { t with pTable := some (bs.set i (res :: list)), nInUse := t.nInUse + 1 })

/-- `resTable::add` (lines 605-625): status `-1` when the identifier is
already present, `0` on success.  A first call allocates storage for
`1 << 10` buckets; a call at capacity performs one incremental split
first and re-checks for a duplicate because the split can move the
target bucket. -/
def ResTable.add (idHash : ID → Nat) (allocOk : Bool) (t : ResTable ID) (res : ID) :
    Option (Int × ResTable ID) :=
  match t.pTable with
  | none =>
    match t.setTableSizePrivate allocOk 10 with
    | none => none
    | some (_, t1) => some (t1.addCore idHash res)
  | some _ =>
    if t.tableSize ≤ t.nInUse then
      match t.splitBucket idHash allocOk with
      | none => none
      | some t1 =>
        let list := (t1.pTable.getD []).getD (t1.hash idHash res) []
        if (ResTable.find list res).isSome then some (-1, t1)
        else some (t1.addCore idHash res)
    else some (t.addCore idHash res)

/-- `resTable::setTableSize` (lines 490-510): round the requested size up
to a power of two by counting its bits — the 32-bit complement in
`newMask & ~nBitsMask` is `resTableBitMask 32 - resTableBitMask nbits` —
then grow through `setTableSizePrivate`. -/
def ResTable.setTableSize (allocOk : Bool) (t : ResTable ID) (newTableSize : Nat) :
    Option (ResTable ID) :=
  if newTableSize = 0 then some t
  else
    let newMask := newTableSize - 1
    let nbits :=
      ((List.range 32).find? fun nbits =>
        newMask &&& (resTableBitMask 32 - resTableBitMask nbits) == 0).getD 32
    (t.setTableSizePrivate allocOk nbits).map fun p => p.2

/-- The entry sequence produced by `resTable::traverse` and
`resTableIter` (lines 437-450, 693-713): buckets `0 ≤ i < tableSize ()`
in index order, each chain front to back. -/
def ResTable.traverseList (t : ResTable ID) : List ID :=
  ((t.pTable.getD []).take t.tableSize).flatten

/-- All entries stored anywhere in the backing array; equal to
`traverseList` whenever the buckets past `tableSize ()` are empty, which
the structural invariant guarantees. -/
def ResTable.residents (t : ResTable ID) : List ID :=
  (t.pTable.getD []).flatten

/-- One `do {} while` pass of `integerHash` (lines 830-860): halve the
working width and fold the upper bits down, repeating while the width
still exceeds `MIN_INDEX_WIDTH`. -/
def integerHashAux (minIndexWidth : Nat) (width hashid : Nat) : Nat :=
  let w := width >>> 1
  let h := hashid ^^^ (hashid >>> w)
  if minIndexWidth < w then integerHashAux minIndexWidth w h else h
termination_by width
decreasing_by
  simp only [Nat.shiftRight_eq_div_pow, pow_one] at *
  omega

/-- `integerHash` (lines 830-860). -/
def integerHash (minIndexWidth maxIdWidth : Nat) (id : Nat) : Nat :=
  integerHashAux minIndexWidth maxIdWidth id

/-- `chronIntId::hash`, i.e. `intId<unsigned, 8, 32>::hash` (lines
196-200, 727-728, 866-870): identifier equality is plain `unsigned`
equality (lines 809-814) and the hash is the integer mixer over the full
32-bit width. -/
def chronIntIdHash (id : Nat) : Nat := integerHash 8 32 id

/-- `chronIntIdResTable<ITEM>` (lines 202-212): the underlying table plus
the `allocId` counter, an `unsigned` that wraps at `2 ^ 32`. -/
structure ChronIntIdResTable where
  tbl : ResTable Nat
  allocId : Nat
  deriving DecidableEq

/-- The `chronIntIdResTable` constructor (lines 733-735): empty table,
counter starting at 1. -/
def ChronIntIdResTable.initial : ChronIntIdResTable := ⟨ResTable.initial, 1⟩

/-- `chronIntIdResTable::add` (lines 762-771): assign `allocId++` (32-bit
post-increment) as the item's id and retry with the following id while
the table reports a duplicate.  `fuel` bounds the number of probes; the C
`do {} while` loop is unbounded. -/
def ChronIntIdResTable.add (fuel : Nat) (c : ChronIntIdResTable) :
    Option (Nat × ChronIntIdResTable) :=
  match fuel with
  | 0 => none
  | fuel + 1 =>
    let itemId := c.allocId
    let nextAllocId := (c.allocId + 1) % 2 ^ 32
    match ResTable.add chronIntIdHash true c.tbl itemId with
    | none => none
    | some (status, t1) =>
      if status = 0 then some (itemId, ⟨t1, nextAllocId⟩)
      else ChronIntIdResTable.add fuel ⟨t1, nextAllocId⟩

/-- `n` successive calls of `chronIntIdResTable::add`, collecting the
assigned ids in call order. -/
def ChronIntIdResTable.addN (fuel : Nat) :
    Nat → ChronIntIdResTable → Option (List Nat × ChronIntIdResTable)
  | 0, c => some ([], c)
  | n + 1, c =>
    match ChronIntIdResTable.add fuel c with
    | none => none
    | some (id, c1) =>
      match ChronIntIdResTable.addN fuel n c1 with
      | none => none
      | some (ids, c2) => some (id :: ids, c2)

/-- `stringId::allocationType` (line 236). -/
inductive AllocationType where
  | copyString
  | refString
  deriving DecidableEq

/-- `stringId` (lines 234-249): the backing characters (`none` models a
null `pStr`) and the ownership mode.  A C string has no interior NUL, so
the content is the byte list up to the terminator. -/
structure StringId where
  pStr : Option (List Nat)
  allocType : AllocationType
  deriving DecidableEq

/-- The `stringId` constructor (lines 901-912): `copyString` duplicates
the bytes with `memcpy` — at the value level the duplicate carries the
same content — while `refString` aliases the caller's storage. -/
def StringId.make (idIn : Option (List Nat)) (typeIn : AllocationType) : StringId :=
  match typeIn with
  | .copyString => { pStr := idIn, allocType := .copyString }
  | .refString => { pStr := idIn, allocType := .refString }

/-- `stringId::operator ==` (lines 879-886): equal only when both sides
have a backing string (`strcmp` of equal content); never equal when
either `pStr` is null. -/
def StringId.beq (a b : StringId) : Bool :=
  match a.pStr, b.pStr with
  | some x, some y => decide (x = y)
  | _, _ => false

/-- `stringId::fastHashPermutedIndexSpace` (lines 1019-1036). -/
def fastHashPermutedIndexSpace : List Nat :=
  [39, 159, 180, 252, 71, 6, 13, 164, 232, 35, 226, 155, 98, 120, 154, 69,
   157, 24, 137, 29, 147, 78, 121, 85, 112, 8, 248, 130, 55, 117, 190, 160,
   176, 131, 228, 64, 211, 106, 38, 27, 140, 30, 88, 210, 227, 104, 84, 77,
   75, 107, 169, 138, 195, 184, 70, 90, 61, 166, 7, 244, 165, 108, 219, 51,
   9, 139, 209, 40, 31, 202, 58, 179, 116, 33, 207, 146, 76, 60, 242, 124,
   254, 197, 80, 167, 153, 145, 129, 233, 132, 48, 246, 86, 156, 177, 36, 187,
   45, 1, 96, 18, 19, 62, 185, 234, 99, 16, 218, 95, 128, 224, 123, 253,
   42, 109, 4, 247, 72, 5, 151, 136, 0, 152, 148, 127, 204, 133, 17, 14,
   182, 217, 54, 199, 119, 174, 82, 57, 215, 41, 114, 208, 206, 110, 239, 23,
   189, 15, 3, 22, 188, 79, 113, 172, 28, 2, 222, 21, 251, 225, 237, 105,
   102, 32, 56, 181, 126, 83, 230, 53, 158, 52, 59, 213, 118, 100, 67, 142,
   220, 170, 144, 115, 205, 26, 125, 168, 249, 66, 175, 97, 255, 92, 229, 91,
   214, 236, 178, 243, 46, 44, 201, 250, 135, 186, 150, 221, 163, 216, 162, 43,
   11, 101, 34, 37, 194, 25, 50, 12, 87, 198, 173, 240, 193, 171, 143, 231,
   111, 141, 191, 103, 74, 245, 223, 20, 161, 235, 122, 63, 89, 149, 73, 238,
   134, 68, 93, 183, 241, 81, 196, 49, 192, 65, 212, 94, 203, 10, 200, 47]

/-- Lookup in the permutation table; the index `h ^ c` of the C code is
always below 256 for lane bytes and accumulators below 256. -/
def permLookup (i : Nat) : Nat := fastHashPermutedIndexSpace.getD i 0

/-- The four-lane permutation loop of `stringId::hash` (lines 981-1006);
reaching the end of the byte list models reading the NUL terminator in
the corresponding lane position. -/
def stringHashLanes : List Nat → Nat → Nat → Nat → Nat → Nat × Nat × Nat × Nat
  | [], h0, h1, h2, h3 => (h0, h1, h2, h3)
  | [c0], h0, h1, h2, h3 => (permLookup (h0 ^^^ c0), h1, h2, h3)
  | [c0, c1], h0, h1, h2, h3 =>
    (permLookup (h0 ^^^ c0), permLookup (h1 ^^^ c1), h2, h3)
  | [c0, c1, c2], h0, h1, h2, h3 =>
    (permLookup (h0 ^^^ c0), permLookup (h1 ^^^ c1), permLookup (h2 ^^^ c2), h3)
  | c0 :: c1 :: c2 :: c3 :: rest, h0, h1, h2, h3 =>
    stringHashLanes rest (permLookup (h0 ^^^ c0)) (permLookup (h1 ^^^ c1))
      (permLookup (h2 ^^^ c2)) (permLookup (h3 ^^^ c3))

/-- `stringId::hash` (lines 964-1011): run the four lanes, pack the four
result bytes into one word, and mix with
`integerHash (stringIdMinIndexWidth, stringIdMaxIndexWidth)` where the
code sets those widths to `CHAR_BIT` = 8 and `sizeof (unsigned)` = 4. -/
def StringId.hash (s : StringId) : Nat :=
  match s.pStr with
  | none => 0
  | some bytes =>
    let l := stringHashLanes bytes 0 0 0 0
    integerHash 8 4 ((l.2.2.2 <<< 24) ||| (l.2.2.1 <<< 16) ||| (l.2.1 <<< 8) ||| l.1)

/-- An `add` or `remove` call, for replaying call sequences against the
table. -/
inductive Op (ID : Type) where
  | add (x : ID)
  | remove (x : ID)
  deriving DecidableEq

/-- The identifier an `add` call installs, if any. -/
def Op.addedId : Op ID → Option ID
  | .add x => some x
  | .remove _ => none

/-- Apply one call to the table (allocation succeeding; `add` with a
working allocator always completes). -/
def applyOp (idHash : ID → Nat) (t : ResTable ID) : Op ID → ResTable ID
  | .add x => ((ResTable.add idHash true t x).getD (0, t)).2
  | .remove x => (ResTable.remove idHash t x).2

/-- Replay a call sequence from a freshly constructed table. -/
def runOps (idHash : ID → Nat) (ops : List (Op ID)) : ResTable ID :=
  ops.foldl (applyOp idHash) ResTable.initial

/-- Modelled from the spec (section 8): the abstract resident set —
"lookup(id) succeeds exactly between a successful add(id) and the
matching remove(id)".  An identifier is abstractly resident when some
add installed it and no later remove has taken it out. -/
def specStep (s : List ID) : Op ID → List ID
  | .add x => if x ∈ s then s else x :: s
  | .remove x => s.erase x

/-- The abstract resident set after a call sequence. -/
def specResidentSet (ops : List (Op ID)) : List ID :=
  ops.foldl specStep []

/-- The three structural invariants of spec section 3 as checked by
`resTable::verify` (lines 394-431): every resident entry sits in the
bucket its identifier currently hashes to; no two resident entries have
equal identifiers; `numEntriesInstalled ()` is the sum of the bucket
chain lengths. -/
def StructInv (idHash : ID → Nat) (t : ResTable ID) : Prop :=
  (∀ i, (h : i < (t.pTable.getD []).length) →
     ∀ x ∈ (t.pTable.getD []).getD i [], t.hash idHash x = i) ∧
  (t.pTable.getD []).flatten.Nodup ∧
  t.numEntriesInstalled = ((t.pTable.getD []).map List.length).sum

/-- The full internal invariant of the table: the structural invariants
plus the addressing-state facts `resTable::verify` asserts (masks are
`2 ^ k - 1` values in the documented relation, `nextSplitIndex` stays in
its generation, the backing array has its allocated length, and buckets
past `tableSize ()` are empty). -/
def Inv (idHash : ID → Nat) (t : ResTable ID) : Prop :=
  (t.pTable = none → t = ResTable.initial) ∧
  (t.pTable.isSome = true →
    (t.pTable.getD []).length = 2 ^ t.logBaseTwoTableSize ∧
    t.hashIxSplitMask = 2 ^ t.nBitsHashIxSplitMask - 1 ∧
    t.hashIxMask = 2 ^ (t.nBitsHashIxSplitMask - 1) - 1 ∧
    4 ≤ t.nBitsHashIxSplitMask ∧
    t.nBitsHashIxSplitMask ≤ t.logBaseTwoTableSize ∧
    t.nextSplitIndex ≤ t.hashIxMask + 1 ∧
    (∀ i, (h : i < (t.pTable.getD []).length) →
       ∀ x ∈ (t.pTable.getD []).getD i [], t.hash idHash x = i) ∧
    (∀ i, (h : i < (t.pTable.getD []).length) → t.tableSize ≤ i →
       (t.pTable.getD []).getD i [] = []) ∧
    t.nInUse = (t.pTable.getD []).flatten.length ∧
    (t.pTable.getD []).flatten.Nodup)

instance decidableStructInv (idHash : ID → Nat) (t : ResTable ID) :
    Decidable (StructInv idHash t) := by
  unfold StructInv
  infer_instance

instance decidableInv (idHash : ID → Nat) (t : ResTable ID) :
    Decidable (Inv idHash t) := by
  unfold Inv
  infer_instance

/-- Table states produced by sequences of completed operations, each
growth allocation free to succeed or fail. -/
inductive Reachable (idHash : ID → Nat) : ResTable ID → Prop where
  | init : Reachable idHash ResTable.initial
  | add {t t' : ResTable ID} {r : Int} (ok : Bool) (x : ID) :
      Reachable idHash t → ResTable.add idHash ok t x = some (r, t') →
      Reachable idHash t'
  | remove {t : ResTable ID} (x : ID) :
      Reachable idHash t → Reachable idHash (ResTable.remove idHash t x).2
  | setTableSize {t t' : ResTable ID} (ok : Bool) (n : Nat) :
      Reachable idHash t → ResTable.setTableSize ok t n = some t' →
      Reachable idHash t'

/-- Identity hash used by the concrete example tables. -/
def natHash (n : Nat) : Nat := n

/-- Fold a list of successful adds into a table. -/
def addAll (idHash : ID → Nat) (t : ResTable ID) (xs : List ID) : ResTable ID :=
  xs.foldl (fun t x => ((ResTable.add idHash true t x).getD (0, t)).2) t

/-- A 16-bucket table obtained by `setTableSize 2` on a fresh table
(logical capacity 8). -/
def exTable16 : ResTable Nat :=
  (ResTable.setTableSize true ResTable.initial 2).getD ResTable.initial

/-- `exTable16` filled to capacity with ids `8, 1, ..., 7`; id 8 shares
bucket 0 with the split pending. -/
def exTableC4 : ResTable Nat := addAll natHash exTable16 [8, 1, 2, 3, 4, 5, 6, 7]

/-- `exTable16` filled with 16 ids so that the next incremental split
requires doubling the backing array. -/
def exTableC6 : ResTable Nat := addAll natHash exTable16 (List.range 16)

/-- The bucket array of `exTableC6`. -/
def exTableC6buckets : List (List Nat) := exTableC6.pTable.getD []

/-! General list helpers about `getD`, `set` and `flatten`. -/

theorem getD_set_self {α : Type} (l : List α) (i : Nat) (h : i < l.length)
    (v d : α) : (l.set i v).getD i d = v := by
  rw [List.getD_eq_getElem _ _ (by simpa using h), List.getElem_set]
  simp

theorem getD_set_ne {α : Type} (l : List α) (i j : Nat) (hne : i ≠ j)
    (v d : α) : (l.set i v).getD j d = l.getD j d := by
  rcases Nat.lt_or_ge j l.length with hj | hj
  · rw [List.getD_eq_getElem _ _ (by simpa using hj),
      List.getD_eq_getElem _ _ hj, List.getElem_set]
    simp [hne]
  · rw [List.getD_eq_default _ _ (by simpa using hj), List.getD_eq_default _ _ hj]

theorem flatten_decomp {α : Type} (bs : List (List α)) (i : Nat)
    (h : i < bs.length) :
    bs.flatten = (bs.take i).flatten ++ bs.getD i [] ++ (bs.drop (i + 1)).flatten := by
  conv_lhs => rw [← List.take_append_drop i bs]
  rw [List.drop_eq_getElem_cons h, List.flatten_append, List.flatten_cons,
    List.getD_eq_getElem bs [] h, List.append_assoc]

theorem flatten_set {α : Type} (bs : List (List α)) (i : Nat)
    (h : i < bs.length) (v : List α) :
    (bs.set i v).flatten = (bs.take i).flatten ++ v ++ (bs.drop (i + 1)).flatten := by
  rw [List.set_eq_take_cons_drop v h, List.flatten_append, List.flatten_cons,
    List.append_assoc]

theorem flatten_set_cons_perm {α : Type} (bs : List (List α)) (i : Nat)
    (h : i < bs.length) (x : α) :
    ((bs.set i (x :: bs.getD i [])).flatten).Perm (x :: bs.flatten) := by
  rw [flatten_set bs i h, flatten_decomp bs i h, List.append_assoc,
    List.append_assoc, List.cons_append]
  exact List.perm_middle

theorem flatten_set_erase_perm {α : Type} [DecidableEq α] (bs : List (List α))
    (i : Nat) (h : i < bs.length) (x : α) (hx : x ∈ bs.getD i []) :
    ((bs.set i ((bs.getD i []).erase x)).flatten).Perm (bs.flatten.erase x) := by
  have hmid : (bs.flatten).Perm (x :: (bs.set i ((bs.getD i []).erase x)).flatten) := by
    rw [flatten_set bs i h, flatten_decomp bs i h]
    refine List.Perm.trans
      (List.Perm.append_right _ (List.Perm.append_left _ (List.perm_cons_erase hx))) ?_
    simp only [List.append_assoc, List.cons_append]
    exact List.perm_middle
  have h2 := List.Perm.erase x hmid
  rw [List.erase_cons_head] at h2
  exact h2.symm

theorem mem_flatten_of_mem_getD {α : Type} {bs : List (List α)} {i : Nat}
    (h : i < bs.length) {x : α} (hx : x ∈ bs.getD i []) : x ∈ bs.flatten := by
  rw [List.getD_eq_getElem bs [] h] at hx
  exact List.mem_flatten.2 ⟨bs[i], List.getElem_mem h, hx⟩

theorem mem_getD_of_mem_flatten {α : Type} {g : α → Nat} {bs : List (List α)}
    (hplace : ∀ i, (h : i < bs.length) → ∀ x ∈ bs.getD i [], g x = i)
    {x : α} (hx : x ∈ bs.flatten) : x ∈ bs.getD (g x) [] := by
  obtain ⟨l, hl, hxl⟩ := List.mem_flatten.1 hx
  obtain ⟨j, hj, rfl⟩ := List.mem_iff_getElem.1 hl
  have : x ∈ bs.getD j [] := by rwa [List.getD_eq_getElem bs [] hj]
  have hg := hplace j hj x this
  rwa [hg]

theorem flatten_take_of_tail_empty {α : Type} {bs : List (List α)} {K : Nat}
    (htail : ∀ i, (h : i < bs.length) → K ≤ i → bs.getD i [] = []) :
    (bs.take K).flatten = bs.flatten := by
  conv_rhs => rw [← List.take_append_drop K bs]
  rw [List.flatten_append]
  suffices hdrop : (bs.drop K).flatten = [] by rw [hdrop, List.append_nil]
  rw [List.flatten_eq_nil_iff]
  intro l hl
  obtain ⟨j, hj, rfl⟩ := List.mem_iff_getElem.1 hl
  rw [List.getElem_drop]
  have hlt : K + j < bs.length := by
    have := hj
    simp [List.length_drop] at this
    omega
  have := htail (K + j) hlt (Nat.le_add_right _ _)
  rwa [List.getD_eq_getElem bs [] hlt] at this

/-! Arithmetic facts about the masks and the hash. -/

theorem resTableBitMask_eq (n : Nat) : resTableBitMask n = 2 ^ n - 1 := by
  unfold resTableBitMask
  rw [Nat.shiftLeft_eq, Nat.one_mul]

theorem bitMask_shiftRight (n : Nat) : (2 ^ n - 1) >>> 1 = 2 ^ (n - 1) - 1 := by
  rcases n with _ | m
  · simp
  · rw [Nat.shiftRight_eq_div_pow, pow_one]
    have h2 : 2 ^ (m + 1) = 2 ^ m * 2 := Nat.pow_succ 2 m
    have hpos : 0 < 2 ^ m := Nat.pos_pow_of_pos m (by norm_num)
    simp only [Nat.add_sub_cancel]
    omega

theorem and_mask_eq_mod (x n : Nat) : x &&& (2 ^ n - 1) = x % 2 ^ n :=
  Nat.and_pow_two_sub_one_eq_mod x n

theorem mod_two_pow_succ_le (h n : Nat) (hn : 1 ≤ n) :
    h % 2 ^ n ≤ h % 2 ^ (n - 1) + 2 ^ (n - 1) := by
  have hrw : 2 ^ n = 2 ^ (n - 1) * 2 := by
    conv_lhs => rw [show n = (n - 1) + 1 by omega]
    exact Nat.pow_succ 2 (n - 1)
  rw [hrw, Nat.mod_mul]
  have : h / 2 ^ (n - 1) % 2 ≤ 1 := by omega
  have hpos : 0 < 2 ^ (n - 1) := Nat.pos_pow_of_pos _ (by norm_num)
  nlinarith [Nat.mul_le_mul_left (2 ^ (n - 1)) this]

theorem hash_def (idHash : ID → Nat) (t : ResTable ID) (x : ID) :
    t.hash idHash x =
      if t.nextSplitIndex ≤ idHash x &&& t.hashIxMask then idHash x &&& t.hashIxMask
      else idHash x &&& t.hashIxSplitMask := rfl

theorem hash_congr (idHash : ID → Nat) (t t' : ResTable ID)
    (hm : t'.hashIxMask = t.hashIxMask) (hs : t'.hashIxSplitMask = t.hashIxSplitMask)
    (hn : t'.nextSplitIndex = t.nextSplitIndex) (x : ID) :
    t'.hash idHash x = t.hash idHash x := by
  rw [hash_def, hash_def, hm, hs, hn]

theorem hash_lt (idHash : ID → Nat) (t : ResTable ID)
    (hs : t.hashIxSplitMask = 2 ^ t.nBitsHashIxSplitMask - 1)
    (hm : t.hashIxMask = 2 ^ (t.nBitsHashIxSplitMask - 1) - 1)
    (hnb : 1 ≤ t.nBitsHashIxSplitMask) (x : ID) :
    t.hash idHash x < (t.hashIxMask + 1) + t.nextSplitIndex := by
  rw [hash_def]
  by_cases hc : t.nextSplitIndex ≤ idHash x &&& t.hashIxMask
  · rw [if_pos hc]
    have h1 := Nat.and_le_right (n := idHash x) (m := t.hashIxMask)
    omega
  · rw [if_neg hc]
    have e1 : idHash x &&& t.hashIxSplitMask = idHash x % 2 ^ t.nBitsHashIxSplitMask := by
      rw [hs, and_mask_eq_mod]
    have e2 : idHash x &&& t.hashIxMask = idHash x % 2 ^ (t.nBitsHashIxSplitMask - 1) := by
      rw [hm, and_mask_eq_mod]
    have e3 := mod_two_pow_succ_le (idHash x) t.nBitsHashIxSplitMask hnb
    have e4 : 0 < 2 ^ (t.nBitsHashIxSplitMask - 1) := Nat.pos_pow_of_pos _ (by norm_num)
    omega

theorem hash_nextSplit_succ (idHash : ID → Nat) (t t' : ResTable ID)
    (hm : t'.hashIxMask = t.hashIxMask) (hs : t'.hashIxSplitMask = t.hashIxSplitMask)
    (hn : t'.nextSplitIndex = t.nextSplitIndex + 1) (x : ID)
    (hx : t.hash idHash x ≠ t.nextSplitIndex) :
    t'.hash idHash x = t.hash idHash x := by
  rw [hash_def] at hx
  rw [hash_def, hash_def, hm, hs, hn]
  by_cases hc : t.nextSplitIndex ≤ idHash x &&& t.hashIxMask
  · rw [if_pos hc] at hx
    rw [if_pos (by omega), if_pos hc]
  · rw [if_neg (by omega), if_neg hc]

theorem hash_after_double (idHash : ID → Nat) (t t' : ResTable ID)
    (hfull : t.hashIxMask < t.nextSplitIndex)
    (hm' : t'.hashIxMask = t.hashIxSplitMask)
    (hn' : t'.nextSplitIndex = 0) (x : ID) :
    t'.hash idHash x = t.hash idHash x := by
  rw [hash_def, hash_def, hm', hn']
  have h1 := Nat.and_le_right (n := idHash x) (m := t.hashIxMask)
  rw [if_pos (Nat.zero_le _), if_neg (by omega)]

theorem find_eq (list : List ID) (idIn : ID) :
    ResTable.find list idIn = if idIn ∈ list then some idIn else none := by
  induction list with
  | nil => simp [ResTable.find]
  | cons y ys ih =>
    unfold ResTable.find at ih ⊢
    by_cases hy : y = idIn
    · subst hy
      rw [List.find?_cons_of_pos _ (by simp)]
      simp
    · rw [List.find?_cons_of_neg _ (by simp [hy]), ih]
      simp only [List.mem_cons]
      have : ¬idIn = y := fun hcontra => hy hcontra.symm
      by_cases hmem : idIn ∈ ys
      · rw [if_pos hmem, if_pos (Or.inr hmem)]
      · rw [if_neg hmem, if_neg (by tauto)]

theorem distribute_length (g : ID → Nat) (tmp : List ID) :
    ∀ bs : List (List ID), (distribute g bs tmp).length = bs.length := by
  induction tmp with
  | nil => intro bs; rfl
  | cons x rest ih =>
    intro bs
    simp only [distribute]
    rw [ih, List.length_set]

theorem distribute_flatten_perm (g : ID → Nat) (tmp : List ID) :
    ∀ bs : List (List ID), (∀ x ∈ tmp, g x < bs.length) →
      ((distribute g bs tmp).flatten).Perm (tmp ++ bs.flatten) := by
  induction tmp with
  | nil => intro bs _; simp [distribute]
  | cons x rest ih =>
    intro bs hb
    simp only [distribute]
    have hx : g x < bs.length := hb x (List.mem_cons_self x rest)
    have h1 := ih (bs.set (g x) (x :: bs.getD (g x) []))
      (fun y hy => by rw [List.length_set]; exact hb y (List.mem_cons_of_mem _ hy))
    refine h1.trans ?_
    have h2 := flatten_set_cons_perm bs (g x) hx x
    refine (List.Perm.append_left rest h2).trans ?_
    simpa using (List.perm_middle : (rest ++ x :: bs.flatten).Perm (x :: (rest ++ bs.flatten)))

theorem distribute_placement (g : ID → Nat) (tmp : List ID) :
    ∀ bs : List (List ID), (∀ x ∈ tmp, g x < bs.length) →
      (∀ i, (h : i < bs.length) → ∀ x ∈ bs.getD i [], g x = i) →
      ∀ i, (h : i < (distribute g bs tmp).length) →
        ∀ x ∈ (distribute g bs tmp).getD i [], g x = i := by
  induction tmp with
  | nil => intro bs _ hp; simpa [distribute] using hp
  | cons y rest ih =>
    intro bs hb hp
    simp only [distribute]
    apply ih
    · intro z hz
      rw [List.length_set]
      exact hb z (List.mem_cons_of_mem _ hz)
    · intro i hi x hx
      rw [List.length_set] at hi
      by_cases hiy : g y = i
      · subst hiy
        rw [getD_set_self bs (g y) (hb y (List.mem_cons_self y rest)) _ _] at hx
        rcases List.mem_cons.1 hx with rfl | hx2
        · rfl
        · exact hp (g y) (hb y (List.mem_cons_self y rest)) x hx2
      · rw [getD_set_ne bs (g y) i hiy _ _] at hx
        exact hp i hi x hx

theorem distribute_tail (g : ID → Nat) (tmp : List ID) (K : Nat) :
    ∀ bs : List (List ID), (∀ x ∈ tmp, g x < K) →
      (∀ i, (h : i < bs.length) → K ≤ i → bs.getD i [] = []) →
      ∀ i, (h : i < (distribute g bs tmp).length) → K ≤ i →
        (distribute g bs tmp).getD i [] = [] := by
  induction tmp with
  | nil => intro bs _ ht; simpa [distribute] using ht
  | cons y rest ih =>
    intro bs hb ht
    simp only [distribute]
    apply ih
    · intro z hz
      exact hb z (List.mem_cons_of_mem _ hz)
    · intro i hi hK
      rw [List.length_set] at hi
      have hgy : g y < K := hb y (List.mem_cons_self y rest)
      rw [getD_set_ne bs (g y) i (by omega) _ _]
      exact ht i hi hK

/-! Invariant plumbing. -/

theorem inv_initial (idHash : ID → Nat) : Inv idHash (ResTable.initial : ResTable ID) := by
  constructor
  · intro _
    rfl
  · intro h
    simp [ResTable.initial] at h

theorem inv_unpack (idHash : ID → Nat) {t : ResTable ID} (hInv : Inv idHash t)
    {bs : List (List ID)} (hbs : t.pTable = some bs) :
    bs.length = 2 ^ t.logBaseTwoTableSize ∧
    t.hashIxSplitMask = 2 ^ t.nBitsHashIxSplitMask - 1 ∧
    t.hashIxMask = 2 ^ (t.nBitsHashIxSplitMask - 1) - 1 ∧
    4 ≤ t.nBitsHashIxSplitMask ∧
    t.nBitsHashIxSplitMask ≤ t.logBaseTwoTableSize ∧
    t.nextSplitIndex ≤ t.hashIxMask + 1 ∧
    (∀ i, (h : i < bs.length) → ∀ x ∈ bs.getD i [], t.hash idHash x = i) ∧
    (∀ i, (h : i < bs.length) → t.tableSize ≤ i → bs.getD i [] = []) ∧
    t.nInUse = bs.flatten.length ∧
    bs.flatten.Nodup := by
  have h := hInv.2 (by rw [hbs]; rfl)
  rw [hbs] at h
  simpa using h

theorem inv_pack (idHash : ID → Nat) {t : ResTable ID} (bs : List (List ID))
    (hbs : t.pTable = some bs)
    (h1 : bs.length = 2 ^ t.logBaseTwoTableSize)
    (h2 : t.hashIxSplitMask = 2 ^ t.nBitsHashIxSplitMask - 1)
    (h3 : t.hashIxMask = 2 ^ (t.nBitsHashIxSplitMask - 1) - 1)
    (h4 : 4 ≤ t.nBitsHashIxSplitMask)
    (h5 : t.nBitsHashIxSplitMask ≤ t.logBaseTwoTableSize)
    (h6 : t.nextSplitIndex ≤ t.hashIxMask + 1)
    (h7 : ∀ i, (h : i < bs.length) → ∀ x ∈ bs.getD i [], t.hash idHash x = i)
    (h8 : ∀ i, (h : i < bs.length) → t.tableSize ≤ i → bs.getD i [] = [])
    (h9 : t.nInUse = bs.flatten.length)
    (h10 : bs.flatten.Nodup) : Inv idHash t := by
  constructor
  · intro hnone
    rw [hbs] at hnone
    cases hnone
  · intro _
    rw [hbs]
    simp only [Option.getD_some]
    exact ⟨h1, h2, h3, h4, h5, h6, h7, h8, h9, h10⟩

theorem residents_eq_of_some {t : ResTable ID} {bs : List (List ID)}
    (hbs : t.pTable = some bs) : t.residents = bs.flatten := by
  unfold ResTable.residents
  rw [hbs]
  rfl

theorem tableSize_of_some {t : ResTable ID} {bs : List (List ID)}
    (hbs : t.pTable = some bs) :
    t.tableSize = (t.hashIxMask + 1) + t.nextSplitIndex := by
  unfold ResTable.tableSize
  rw [hbs]

theorem tableSize_le_length (idHash : ID → Nat) {t : ResTable ID}
    (hInv : Inv idHash t) {bs : List (List ID)} (hbs : t.pTable = some bs) :
    t.tableSize ≤ bs.length := by
  obtain ⟨h1, h2, h3, h4, h5, h6, _, _, _, _⟩ := inv_unpack idHash hInv hbs
  have hts := tableSize_of_some hbs
  have hpow : 2 ^ t.nBitsHashIxSplitMask ≤ 2 ^ t.logBaseTwoTableSize :=
    Nat.pow_le_pow_right (by norm_num) h5
  have hsplit : 2 ^ t.nBitsHashIxSplitMask = 2 ^ (t.nBitsHashIxSplitMask - 1) * 2 := by
    conv_lhs => rw [show t.nBitsHashIxSplitMask = (t.nBitsHashIxSplitMask - 1) + 1 by omega]
    exact Nat.pow_succ 2 _
  have hpos : 0 < 2 ^ (t.nBitsHashIxSplitMask - 1) := Nat.pos_pow_of_pos _ (by norm_num)
  omega

theorem hash_lt_tableSize (idHash : ID → Nat) {t : ResTable ID}
    (hInv : Inv idHash t) {bs : List (List ID)} (hbs : t.pTable = some bs) (x : ID) :
    t.hash idHash x < t.tableSize := by
  obtain ⟨_, h2, h3, h4, _, _, _, _, _, _⟩ := inv_unpack idHash hInv hbs
  rw [tableSize_of_some hbs]
  exact hash_lt idHash t h2 h3 (by omega) x

theorem hash_lt_length (idHash : ID → Nat) {t : ResTable ID}
    (hInv : Inv idHash t) {bs : List (List ID)} (hbs : t.pTable = some bs) (x : ID) :
    t.hash idHash x < bs.length :=
  lt_of_lt_of_le (hash_lt_tableSize idHash hInv hbs x) (tableSize_le_length idHash hInv hbs)

theorem mem_bucket_iff_mem_residents (idHash : ID → Nat) {t : ResTable ID}
    (hInv : Inv idHash t) {bs : List (List ID)} (hbs : t.pTable = some bs) (x : ID) :
    (x ∈ bs.getD (t.hash idHash x) []) ↔ x ∈ t.residents := by
  obtain ⟨_, _, _, _, _, _, h7, _, _, _⟩ := inv_unpack idHash hInv hbs
  rw [residents_eq_of_some hbs]
  constructor
  · intro hx
    exact mem_flatten_of_mem_getD (hash_lt_length idHash hInv hbs x) hx
  · intro hx
    exact mem_getD_of_mem_flatten h7 hx

theorem traverseList_eq_residents (idHash : ID → Nat) {t : ResTable ID}
    (hInv : Inv idHash t) : t.traverseList = t.residents := by
  cases hpt : t.pTable with
  | none =>
    have hini := hInv.1 hpt
    subst hini
    rfl
  | some bs =>
    obtain ⟨_, _, _, _, _, _, _, h8, _, _⟩ := inv_unpack idHash hInv hpt
    unfold ResTable.traverseList ResTable.residents
    rw [hpt]
    simp only [Option.getD_some]
    exact flatten_take_of_tail_empty h8

/-! Characterization of `lookup`. -/

theorem lookup_spec (idHash : ID → Nat) {t : ResTable ID} (hInv : Inv idHash t)
    (x : ID) :
    t.lookup idHash x = if x ∈ t.residents then some x else none := by
  cases hpt : t.pTable with
  | none =>
    have hini := hInv.1 hpt
    subst hini
    rfl
  | some bs =>
    unfold ResTable.lookup
    rw [hpt]
    simp only [find_eq]
    by_cases hx : x ∈ t.residents
    · rw [if_pos ((mem_bucket_iff_mem_residents idHash hInv hpt x).2 hx), if_pos hx]
    · rw [if_neg (fun hc => hx ((mem_bucket_iff_mem_residents idHash hInv hpt x).1 hc)),
        if_neg hx]

/-! Characterization of `remove`. -/

theorem listRemoveFirst_eq (l : List ID) (x : ID) :
    listRemoveFirst l x = (if x ∈ l then some x else none, l.erase x) := by
  induction l with
  | nil => simp [listRemoveFirst]
  | cons y ys ih =>
    unfold listRemoveFirst
    by_cases hy : y = x
    · subst hy
      simp [List.erase_cons_head]
    · rw [if_neg hy, ih]
      dsimp only
      rw [List.erase_cons_tail (by simpa using hy)]
      have hxy : ¬x = y := fun hc => hy hc.symm
      by_cases hmem : x ∈ ys
      · rw [if_pos hmem, if_pos (List.mem_cons_of_mem _ hmem)]
      · rw [if_neg hmem, if_neg (by simp [hxy, hmem])]

theorem remove_not_mem (idHash : ID → Nat) {t : ResTable ID} (hInv : Inv idHash t)
    (x : ID) (hx : x ∉ t.residents) : t.remove idHash x = (none, t) := by
  cases hpt : t.pTable with
  | none =>
    have hini := hInv.1 hpt
    subst hini
    rfl
  | some bs =>
    unfold ResTable.remove
    rw [hpt]
    simp only [listRemoveFirst_eq]
    rw [if_neg (fun hc => hx ((mem_bucket_iff_mem_residents idHash hInv hpt x).1 hc))]

theorem remove_mem (idHash : ID → Nat) {t : ResTable ID} (hInv : Inv idHash t)
    (x : ID) (hx : x ∈ t.residents) :
    ∃ t', t.remove idHash x = (some x, t') ∧ Inv idHash t' ∧
      t'.residents.Perm (t.residents.erase x) ∧
      t'.nInUse + 1 = t.nInUse ∧ t'.pTable.isSome = true := by
  cases hpt : t.pTable with
  | none =>
    have hini := hInv.1 hpt
    subst hini
    cases hx
  | some bs =>
    obtain ⟨h1, h2, h3, h4, h5, h6, h7, h8, h9, h10⟩ := inv_unpack idHash hInv hpt
    have hxb : x ∈ bs.getD (t.hash idHash x) [] :=
      (mem_bucket_iff_mem_residents idHash hInv hpt x).2 hx
    have hilt : t.hash idHash x < bs.length := hash_lt_length idHash hInv hpt x
    set i := t.hash idHash x with hidef
    set t' : ResTable ID :=
      { t with pTable := some (bs.set i ((bs.getD i []).erase x)),
               nInUse := t.nInUse - 1 } with ht'
    have hrm : t.remove idHash x = (some x, t') := by
      unfold ResTable.remove
      rw [hpt]
      simp only [listRemoveFirst_eq, ← hidef]
      rw [if_pos hxb]
    have hperm : ((bs.set i ((bs.getD i []).erase x)).flatten).Perm (bs.flatten.erase x) :=
      flatten_set_erase_perm bs i hilt x hxb
    have hfl : x ∈ bs.flatten := by rwa [residents_eq_of_some hpt] at hx
    have hcongr : ∀ y, t'.hash idHash y = t.hash idHash y := fun y =>
      hash_congr idHash t t' rfl rfl rfl y
    have hts : t'.tableSize = t.tableSize := by
      rw [tableSize_of_some hpt, tableSize_of_some (t := t') rfl]
    refine ⟨t', hrm, ?_, ?_, ?_, by rfl⟩
    · refine inv_pack idHash (bs.set i ((bs.getD i []).erase x)) rfl ?_ h2 h3 h4 h5 h6 ?_ ?_ ?_ ?_
      · rw [List.length_set]
        exact h1
      · intro j hj y hy
        rw [List.length_set] at hj
        rw [hcongr y]
        by_cases hij : i = j
        · subst hij
          rw [getD_set_self bs i hilt _ _] at hy
          exact h7 i hilt y (List.erase_subset _ _ hy)
        · rw [getD_set_ne bs i j hij _ _] at hy
          exact h7 j hj y hy
      · intro j hj hKj
        rw [List.length_set] at hj
        rw [hts] at hKj
        have hne : i ≠ j := by
          have := hash_lt_tableSize idHash hInv hpt x
          omega
        rw [getD_set_ne bs i j hne _ _]
        exact h8 j hj hKj
      · have hlen := hperm.length_eq
        have hlen2 := List.length_erase_of_mem hfl
        have hpos : 0 < bs.flatten.length := List.length_pos.2 (List.ne_nil_of_mem hfl)
        simp only [ht']
        omega
      · exact hperm.symm.nodup (h10.erase x)
    · rw [residents_eq_of_some (t := t') rfl, residents_eq_of_some hpt]
      exact hperm
    · have hlen2 := List.length_erase_of_mem hfl
      have hpos : 0 < bs.flatten.length := List.length_pos.2 (List.ne_nil_of_mem hfl)
      simp only [ht']
      omega

/-! Characterization of `setTableSizePrivate`. -/

theorem flatten_replicate_nil {α : Type} (M : Nat) :
    (List.replicate M ([] : List α)).flatten = [] := by
  induction M with
  | zero => rfl
  | succ m ih => simp [List.replicate_succ, ih]

theorem getD_replicate_nil {α : Type} (M i : Nat) :
    (List.replicate M ([] : List α)).getD i [] = [] := by
  rcases Nat.lt_or_ge i M with h | h
  · rw [List.getD_eq_getElem _ _ (by simpa using h), List.getElem_replicate]
  · rw [List.getD_eq_default _ _ (by simpa using h)]

theorem getD_take_append_replicate {α : Type} (bs : List (List α)) (K M : Nat)
    (hK : K ≤ bs.length) (i : Nat) :
    (bs.take K ++ List.replicate M ([] : List α)).getD i [] =
      if i < K then bs.getD i [] else [] := by
  have htk : (bs.take K).length = K := by
    rw [List.length_take]
    omega
  rcases Nat.lt_or_ge i K with h | h
  · have hi : i < (bs.take K ++ List.replicate M ([] : List α)).length := by
      rw [List.length_append, htk]
      omega
    rw [List.getD_eq_getElem _ _ hi,
      List.getElem_append_left (by rw [htk]; omega),
      List.getElem_take, if_pos h]
    rw [List.getD_eq_getElem _ _ (by omega)]
  · rw [if_neg (by omega)]
    rcases Nat.lt_or_ge i (K + M) with h2 | h2
    · have hi : i < (bs.take K ++ List.replicate M ([] : List α)).length := by
        rw [List.length_append, htk, List.length_replicate]
        omega
      rw [List.getD_eq_getElem _ _ hi,
        List.getElem_append_right (by rw [htk]; omega), List.getElem_replicate]
    · rw [List.getD_eq_default]
      rw [List.length_append, htk, List.length_replicate]
      omega

theorem sTSP_noop (ok : Bool) (t : ResTable ID) (n : Nat)
    (h : n ≤ t.logBaseTwoTableSize) :
    t.setTableSizePrivate ok n = some (true, t) := by
  unfold ResTable.setTableSizePrivate
  rw [if_pos h]

theorem sTSP_fail_some (t : ResTable ID) {bs : List (List ID)}
    (hbs : t.pTable = some bs) (n : Nat) (h : t.logBaseTwoTableSize < n) :
    t.setTableSizePrivate false n = some (false, t) := by
  unfold ResTable.setTableSizePrivate
  rw [if_neg (by omega)]
  simp [hbs]

theorem sTSP_fail_none (t : ResTable ID) (hbs : t.pTable = none) (n : Nat)
    (h : t.logBaseTwoTableSize < n) :
    t.setTableSizePrivate false n = none := by
  unfold ResTable.setTableSizePrivate
  rw [if_neg (by omega)]
  simp [hbs]

theorem sTSP_grow_some (t : ResTable ID) {bs : List (List ID)}
    (hbs : t.pTable = some bs) (n : Nat) (hlog : t.logBaseTwoTableSize < n)
    (h4 : 4 ≤ n) :
    t.setTableSizePrivate true n =
      some (true, { t with
        pTable := some (bs.take t.tableSize ++
          List.replicate (2 ^ n - t.tableSize) []),
        logBaseTwoTableSize := n }) := by
  unfold ResTable.setTableSizePrivate
  rw [if_neg (by omega)]
  simp [hbs, if_neg (by omega : ¬n < 4), Nat.shiftLeft_eq]

theorem sTSP_grow_none (t : ResTable ID) (hbs : t.pTable = none) (n : Nat)
    (hlog : t.logBaseTwoTableSize < n) :
    t.setTableSizePrivate true n =
      some (true, { t with
        pTable := some (List.replicate (2 ^ (if n < 4 then 4 else n)) []),
        hashIxSplitMask := resTableBitMask (if n < 4 then 4 else n),
        nBitsHashIxSplitMask := if n < 4 then 4 else n,
        hashIxMask := resTableBitMask (if n < 4 then 4 else n) >>> 1,
        nextSplitIndex := 0,
        logBaseTwoTableSize := if n < 4 then 4 else n }) := by
  unfold ResTable.setTableSizePrivate
  rw [if_neg (by omega)]
  have hts : t.tableSize = 0 := by
    unfold ResTable.tableSize
    rw [hbs]
  simp [hbs, Nat.shiftLeft_eq, hts]

theorem sTSP_some_spec (idHash : ID → Nat) (ok : Bool) (t : ResTable ID)
    (hInv : Inv idHash t) {bs : List (List ID)} (hbs : t.pTable = some bs)
    (n : Nat) :
    ∃ b t', t.setTableSizePrivate ok n = some (b, t') ∧ Inv idHash t' ∧
      t'.residents = t.residents ∧
      t'.hashIxMask = t.hashIxMask ∧
      t'.hashIxSplitMask = t.hashIxSplitMask ∧
      t'.nextSplitIndex = t.nextSplitIndex ∧
      t'.nBitsHashIxSplitMask = t.nBitsHashIxSplitMask ∧
      t'.nInUse = t.nInUse ∧ t'.tableSize = t.tableSize ∧
      (∃ bs', t'.pTable = some bs') ∧
      (b = true → n ≤ t'.logBaseTwoTableSize) ∧
      (ok = true → b = true) := by
  obtain ⟨h1, h2, h3, h4, h5, h6, h7, h8, h9, h10⟩ := inv_unpack idHash hInv hbs
  by_cases hn : n ≤ t.logBaseTwoTableSize
  · refine ⟨true, t, sTSP_noop ok t n hn, hInv, rfl, rfl, rfl, rfl, rfl, rfl, rfl,
      ⟨bs, hbs⟩, fun _ => hn, fun _ => rfl⟩
  · cases ok with
    | false =>
      refine ⟨false, t, sTSP_fail_some t hbs n (by omega), hInv, rfl, rfl, rfl, rfl,
        rfl, rfl, rfl, ⟨bs, hbs⟩, by simp, by simp⟩
    | true =>
      have h4n : 4 ≤ n := by omega
      set nbs := bs.take t.tableSize ++ List.replicate (2 ^ n - t.tableSize) []
        with hnbs
      set t' : ResTable ID :=
        { t with pTable := some nbs, logBaseTwoTableSize := n } with ht'
      have heq := sTSP_grow_some t hbs n (by omega) h4n
      have hKlen : t.tableSize ≤ bs.length := tableSize_le_length idHash hInv hbs
      have hK2n : t.tableSize ≤ 2 ^ n := by
        have hle : t.tableSize ≤ bs.length := hKlen
        have hpow : 2 ^ t.logBaseTwoTableSize ≤ 2 ^ n :=
          Nat.pow_le_pow_right (by norm_num) (by omega)
        omega
      have hget : ∀ i, nbs.getD i [] = if i < t.tableSize then bs.getD i [] else [] :=
        fun i => getD_take_append_replicate bs t.tableSize _ hKlen i
      have hlen : nbs.length = 2 ^ n := by
        rw [hnbs, List.length_append, List.length_take, List.length_replicate]
        omega
      have hts' : t'.tableSize = t.tableSize := by
        rw [tableSize_of_some (t := t') rfl, tableSize_of_some hbs]
      have hfl : nbs.flatten = bs.flatten := by
        rw [hnbs, List.flatten_append, flatten_replicate_nil, List.append_nil]
        exact flatten_take_of_tail_empty h8
      have hcongr : ∀ y, t'.hash idHash y = t.hash idHash y := fun y =>
        hash_congr idHash t t' rfl rfl rfl y
      refine ⟨true, t', heq, ?_, ?_, rfl, rfl, rfl, rfl, rfl, hts', ⟨nbs, rfl⟩,
        fun _ => le_refl n, fun _ => rfl⟩
      · refine inv_pack idHash (t := t') nbs rfl
          (by show nbs.length = 2 ^ n; exact hlen) h2 h3 h4
          (by show t.nBitsHashIxSplitMask ≤ n; omega) h6 ?_ ?_
          (by rw [hfl]; exact h9) (by rw [hfl]; exact h10)
        · intro i hi x hx
          rw [hget i] at hx
          by_cases hiK : i < t.tableSize
          · rw [if_pos hiK] at hx
            rw [hcongr x]
            exact h7 i (by omega) x hx
          · rw [if_neg hiK] at hx
            cases hx
        · intro i hi hKi
          rw [hget i, if_neg (by rw [hts'] at hKi; omega)]
      · rw [residents_eq_of_some (t := t') rfl, residents_eq_of_some hbs]
        exact hfl

theorem sTSP_none_spec_true (idHash : ID → Nat) (t : ResTable ID)
    (hInv : Inv idHash t) (hbs : t.pTable = none) (n : Nat) (hn : 1 ≤ n) :
    ∃ t', t.setTableSizePrivate true n = some (true, t') ∧ Inv idHash t' ∧
      t'.residents = [] ∧ t'.nInUse = 0 ∧ (∃ bs', t'.pTable = some bs') := by
  have hini := hInv.1 hbs
  subst hini
  have heq := sTSP_grow_none (ResTable.initial : ResTable ID) rfl n
    (by show (0 : Nat) < n; omega)
  set m := if n < 4 then 4 else n with hm
  have h4m : 4 ≤ m := by
    rw [hm]
    by_cases h : n < 4
    · rw [if_pos h]
    · rw [if_neg h]
      omega
  set t' : ResTable ID :=
    { (ResTable.initial : ResTable ID) with
      pTable := some (List.replicate (2 ^ m) []),
      hashIxSplitMask := resTableBitMask m,
      nBitsHashIxSplitMask := m,
      hashIxMask := resTableBitMask m >>> 1,
      nextSplitIndex := 0,
      logBaseTwoTableSize := m } with ht'
  refine ⟨t', by rw [heq], ?_, ?_, rfl, ⟨_, rfl⟩⟩
  · refine inv_pack idHash (t := t') (List.replicate (2 ^ m) []) rfl ?_ ?_ ?_
      h4m (le_refl m) ?_ ?_ ?_ ?_ ?_
    · simp
    · show resTableBitMask m = 2 ^ m - 1
      exact resTableBitMask_eq m
    · show resTableBitMask m >>> 1 = 2 ^ (m - 1) - 1
      rw [resTableBitMask_eq m]
      exact bitMask_shiftRight m
    · show (0 : Nat) ≤ resTableBitMask m >>> 1 + 1
      exact Nat.zero_le _
    · intro i hi x hx
      rw [getD_replicate_nil] at hx
      cases hx
    · intro i hi hKi
      exact getD_replicate_nil _ i
    · show (ResTable.initial : ResTable ID).nInUse = (List.replicate (2 ^ m) ([] : List ID)).flatten.length
      rw [flatten_replicate_nil]
      rfl
    · rw [flatten_replicate_nil]
      exact List.nodup_nil
  · rw [residents_eq_of_some (t := t') rfl, flatten_replicate_nil]

/-! Characterization of the split rehash and of `splitBucket`. -/

theorem tableSize_succ_le_length (idHash : ID → Nat) {t : ResTable ID}
    (hInv : Inv idHash t) {bs : List (List ID)} (hbs : t.pTable = some bs)
    (hnsi : t.nextSplitIndex ≤ t.hashIxMask) : t.tableSize + 1 ≤ bs.length := by
  obtain ⟨h1, h2, h3, h4, h5, h6, _, _, _, _⟩ := inv_unpack idHash hInv hbs
  have hts := tableSize_of_some hbs
  have hpow : 2 ^ t.nBitsHashIxSplitMask ≤ 2 ^ t.logBaseTwoTableSize :=
    Nat.pow_le_pow_right (by norm_num) h5
  have hsplit : 2 ^ t.nBitsHashIxSplitMask = 2 ^ (t.nBitsHashIxSplitMask - 1) * 2 := by
    conv_lhs => rw [show t.nBitsHashIxSplitMask = (t.nBitsHashIxSplitMask - 1) + 1 by omega]
    exact Nat.pow_succ 2 _
  have hpos : 0 < 2 ^ (t.nBitsHashIxSplitMask - 1) := Nat.pos_pow_of_pos _ (by norm_num)
  omega

theorem splitRehash_spec (idHash : ID → Nat) (t : ResTable ID) (hInv : Inv idHash t)
    {bs : List (List ID)} (hbs : t.pTable = some bs)
    (hnsi : t.nextSplitIndex ≤ t.hashIxMask) :
    Inv idHash (t.splitRehash idHash) ∧
    ((t.splitRehash idHash).residents).Perm t.residents ∧
    (t.splitRehash idHash).nInUse = t.nInUse ∧
    (∃ bs', (t.splitRehash idHash).pTable = some bs') ∧
    (t.splitRehash idHash).tableSize = t.tableSize + 1 := by
  obtain ⟨h1, h2, h3, h4, h5, h6, h7, h8, h9, h10⟩ := inv_unpack idHash hInv hbs
  have hbsD : t.pTable.getD [] = bs := by
    rw [hbs]
    rfl
  have hnsi_len : t.nextSplitIndex < bs.length := by
    have := tableSize_le_length idHash hInv hbs
    have hts := tableSize_of_some hbs
    omega
  set nsi := t.nextSplitIndex with hnsidef
  set bs1 := bs.set nsi ([] : List ID) with hbs1def
  set tmp := bs.getD nsi ([] : List ID) with htmpdef
  set t1 : ResTable ID := { t with pTable := some bs1, nextSplitIndex := nsi + 1 }
    with ht1
  set dd := distribute (t1.hash idHash) bs1 tmp with hdd
  set r : ResTable ID := { t1 with pTable := some dd } with hr
  have hrw : t.splitRehash idHash = r := by
    unfold ResTable.splitRehash
    rw [hbsD]
  have hlen1 : bs1.length = bs.length := List.length_set bs nsi []
  have hKlen : t.tableSize + 1 ≤ bs.length :=
    tableSize_succ_le_length idHash hInv hbs hnsi
  have htsr : r.tableSize = t.tableSize + 1 := by
    rw [tableSize_of_some (t := r) rfl, tableSize_of_some hbs]
    show t.hashIxMask + 1 + (nsi + 1) = t.hashIxMask + 1 + nsi + 1
    omega
  have hg_lt : ∀ x : ID, t1.hash idHash x < t.tableSize + 1 := by
    intro x
    have hlt := hash_lt idHash t1 h2 h3
      (by show 1 ≤ t.nBitsHashIxSplitMask; omega) x
    have hlt2 : t1.hash idHash x < (t.hashIxMask + 1) + (nsi + 1) := hlt
    have hts := tableSize_of_some hbs
    omega
  have hg_len : ∀ x ∈ tmp, t1.hash idHash x < bs1.length := by
    intro x _
    rw [hlen1]
    have := hg_lt x
    omega
  have hplace1 : ∀ i, (h : i < bs1.length) → ∀ x ∈ bs1.getD i [], t1.hash idHash x = i := by
    intro i hi x hx
    rw [hlen1] at hi
    by_cases hin : nsi = i
    · subst hin
      rw [hbs1def, getD_set_self bs nsi hnsi_len _ _] at hx
      cases hx
    · rw [hbs1def, getD_set_ne bs nsi i hin _ _] at hx
      have hold := h7 i hi x hx
      exact Eq.trans (hash_nextSplit_succ idHash t t1 rfl rfl rfl x (by omega)) hold
  have htail1 : ∀ i, (h : i < bs1.length) → t.tableSize + 1 ≤ i → bs1.getD i [] = [] := by
    intro i hi hKi
    rw [hlen1] at hi
    have hts := tableSize_of_some hbs
    rw [hbs1def, getD_set_ne bs nsi i (by omega) _ _]
    exact h8 i hi (by omega)
  have htmp_sub : ∀ x ∈ tmp, t.hash idHash x = nsi := h7 nsi hnsi_len
  have hAC : bs.flatten = (bs.take nsi).flatten ++ tmp ++ (bs.drop (nsi + 1)).flatten :=
    flatten_decomp bs nsi hnsi_len
  have hbs1fl : bs1.flatten = (bs.take nsi).flatten ++ (bs.drop (nsi + 1)).flatten := by
    rw [hbs1def, flatten_set bs nsi hnsi_len []]
    simp
  have hddperm : dd.flatten.Perm (tmp ++ bs1.flatten) :=
    distribute_flatten_perm _ tmp bs1 hg_len
  have hfullperm : dd.flatten.Perm bs.flatten := by
    refine hddperm.trans ?_
    rw [hbs1fl, hAC]
    have hcomm : (tmp ++ (bs.take nsi).flatten).Perm ((bs.take nsi).flatten ++ tmp) :=
      List.perm_append_comm
    have := List.Perm.append_right ((bs.drop (nsi + 1)).flatten) hcomm
    simpa [List.append_assoc] using this
  refine ⟨?_, ?_, by rw [hrw], ⟨dd, by rw [hrw]⟩, ?_⟩
  · rw [hrw]
    refine inv_pack idHash (t := r) dd rfl ?_ h2 h3 h4 h5 ?_ ?_ ?_ ?_ ?_
    · show dd.length = 2 ^ t.logBaseTwoTableSize
      rw [hdd, distribute_length, hlen1, h1]
    · show nsi + 1 ≤ t.hashIxMask + 1
      omega
    · intro i hi x hx
      exact distribute_placement (t1.hash idHash) tmp bs1 hg_len hplace1 i hi x hx
    · intro i hi hKi
      rw [htsr] at hKi
      exact distribute_tail (t1.hash idHash) tmp (t.tableSize + 1) bs1
        (fun x _ => hg_lt x) htail1 i hi hKi
    · show t.nInUse = dd.flatten.length
      have hl1 := hfullperm.length_eq
      omega
    · exact hfullperm.symm.nodup h10
  · rw [hrw, residents_eq_of_some (t := r) rfl, residents_eq_of_some hbs]
    exact hfullperm
  · rw [hrw]
    exact htsr

theorem maskUpdate_spec (idHash : ID → Nat) (t1 t3 : ResTable ID)
    (hInv1 : Inv idHash t1) {bs1 : List (List ID)} (hbs1 : t1.pTable = some bs1)
    (hfull : t1.hashIxMask < t1.nextSplitIndex)
    (hlog : t1.nBitsHashIxSplitMask + 1 ≤ t1.logBaseTwoTableSize)
    (e1 : t3.pTable = t1.pTable)
    (e2 : t3.nextSplitIndex = 0)
    (e3 : t3.hashIxMask = resTableBitMask (t1.nBitsHashIxSplitMask + 1) >>> 1)
    (e4 : t3.hashIxSplitMask = resTableBitMask (t1.nBitsHashIxSplitMask + 1))
    (e5 : t3.nBitsHashIxSplitMask = t1.nBitsHashIxSplitMask + 1)
    (e6 : t3.logBaseTwoTableSize = t1.logBaseTwoTableSize)
    (e7 : t3.nInUse = t1.nInUse) :
    Inv idHash t3 ∧ t3.residents = t1.residents ∧ t3.tableSize = t1.tableSize ∧
    t3.nextSplitIndex ≤ t3.hashIxMask ∧ t3.pTable = some bs1 := by
  obtain ⟨h1, h2, h3, h4, h5, h6, h7, h8, h9, h10⟩ := inv_unpack idHash hInv1 hbs1
  have hbs3 : t3.pTable = some bs1 := by rw [e1, hbs1]
  have hnsi_eq : t1.nextSplitIndex = t1.hashIxMask + 1 := by omega
  have hmask3 : t3.hashIxMask = 2 ^ t1.nBitsHashIxSplitMask - 1 := by
    rw [e3, resTableBitMask_eq, bitMask_shiftRight, Nat.add_sub_cancel]
  have hsplit3 : t3.hashIxSplitMask = 2 ^ (t1.nBitsHashIxSplitMask + 1) - 1 := by
    rw [e4, resTableBitMask_eq]
  have hhash : ∀ x, t3.hash idHash x = t1.hash idHash x := by
    intro x
    exact hash_after_double idHash t1 t3 hfull (by rw [hmask3, h2]) e2 x
  have hpowsplit : 2 ^ t1.nBitsHashIxSplitMask =
      2 ^ (t1.nBitsHashIxSplitMask - 1) * 2 := by
    conv_lhs => rw [show t1.nBitsHashIxSplitMask = (t1.nBitsHashIxSplitMask - 1) + 1 by omega]
    exact Nat.pow_succ 2 _
  have hpos : 0 < 2 ^ (t1.nBitsHashIxSplitMask - 1) := Nat.pos_pow_of_pos _ (by norm_num)
  have hpos2 : 0 < 2 ^ t1.nBitsHashIxSplitMask := Nat.pos_pow_of_pos _ (by norm_num)
  have hts : t3.tableSize = t1.tableSize := by
    rw [tableSize_of_some hbs3, tableSize_of_some hbs1, hmask3, hnsi_eq, h3, e2]
    omega
  refine ⟨?_, ?_, hts, ?_, hbs3⟩
  · refine inv_pack idHash (t := t3) bs1 hbs3 ?_ ?_ ?_ ?_ ?_ ?_ ?_ ?_ ?_ h10
    · rw [e6]
      exact h1
    · rw [hsplit3, e5]
    · rw [hmask3, e5, Nat.add_sub_cancel]
    · omega
    · omega
    · rw [e2]
      omega
    · intro i hi x hx
      rw [hhash x]
      exact h7 i hi x hx
    · intro i hi hKi
      rw [hts] at hKi
      exact h8 i hi hKi
    · rw [e7]
      exact h9
  · unfold ResTable.residents
    rw [e1]
  · rw [e2]
    omega

theorem splitBucket_spec (idHash : ID → Nat) (ok : Bool) (t : ResTable ID)
    (hInv : Inv idHash t) {bs : List (List ID)} (hbs : t.pTable = some bs) :
    ∃ t', t.splitBucket idHash ok = some t' ∧ Inv idHash t' ∧
      (t'.residents).Perm t.residents ∧ t'.nInUse = t.nInUse ∧
      (∃ bs' : List (List ID), t'.pTable = some bs') := by
  unfold ResTable.splitBucket
  by_cases hfull : t.hashIxMask < t.nextSplitIndex
  · rw [if_pos hfull]
    obtain ⟨b, t1, heq, hInv1, hres1, hm1, hs1, hn1, hnb1, hni1, hts1, ⟨bs1, hbs1⟩,
      hblog, hokb⟩ := sTSP_some_spec idHash ok t hInv hbs (t.nBitsHashIxSplitMask + 1)
    rw [heq]
    cases b with
    | false =>
      refine ⟨t1, by simp, hInv1, by rw [hres1], hni1, ⟨bs1, hbs1⟩⟩
    | true =>
      have hfull1 : t1.hashIxMask < t1.nextSplitIndex := by
        rw [hm1, hn1]
        exact hfull
      have hlog1 : t1.nBitsHashIxSplitMask + 1 ≤ t1.logBaseTwoTableSize := by
        have := hblog rfl
        omega
      obtain ⟨hInv3, hres3, hts3, hnsi3, hbs3⟩ := maskUpdate_spec idHash t1
        { t1 with
          nBitsHashIxSplitMask := t1.nBitsHashIxSplitMask + 1,
          hashIxSplitMask := resTableBitMask (t1.nBitsHashIxSplitMask + 1),
          hashIxMask := resTableBitMask (t1.nBitsHashIxSplitMask + 1) >>> 1,
          nextSplitIndex := 0 }
        hInv1 hbs1 hfull1 hlog1 rfl rfl rfl rfl rfl rfl rfl
      obtain ⟨hInvR, hpermR, hniR, hsomeR, htsR⟩ :=
        splitRehash_spec idHash _ hInv3 hbs3 hnsi3
      refine ⟨_, by simp, hInvR, ?_, ?_, hsomeR⟩
      · refine hpermR.trans ?_
        rw [hres3, hres1]
      · rw [hniR]
        show t1.nInUse = t.nInUse
        exact hni1
  · rw [if_neg hfull]
    obtain ⟨hInvR, hpermR, hniR, hsomeR, htsR⟩ :=
      splitRehash_spec idHash t hInv hbs (by omega)
    exact ⟨_, rfl, hInvR, hpermR, hniR, hsomeR⟩

/-! Characterization of `add`. -/

theorem addCore_spec (idHash : ID → Nat) (t : ResTable ID) (hInv : Inv idHash t)
    {bs : List (List ID)} (hbs : t.pTable = some bs) (x : ID) :
    (x ∈ t.residents → t.addCore idHash x = (-1, t)) ∧
    (x ∉ t.residents →
      ∃ t', t.addCore idHash x = (0, t') ∧ Inv idHash t' ∧
        (t'.residents).Perm (x :: t.residents) ∧ t'.nInUse = t.nInUse + 1 ∧
        (∃ bs2 : List (List ID), t'.pTable = some bs2) ∧
        t'.tableSize = t.tableSize) := by
  obtain ⟨h1, h2, h3, h4, h5, h6, h7, h8, h9, h10⟩ := inv_unpack idHash hInv hbs
  have hbsD : t.pTable.getD [] = bs := by
    rw [hbs]
    rfl
  have hilt : t.hash idHash x < bs.length := hash_lt_length idHash hInv hbs x
  have hits : t.hash idHash x < t.tableSize := hash_lt_tableSize idHash hInv hbs x
  constructor
  · intro hx
    unfold ResTable.addCore
    rw [hbsD]
    dsimp only
    rw [find_eq, if_pos ((mem_bucket_iff_mem_residents idHash hInv hbs x).2 hx)]
    rfl
  · intro hx
    have hxb : x ∉ bs.getD (t.hash idHash x) [] := fun hc =>
      hx ((mem_bucket_iff_mem_residents idHash hInv hbs x).1 hc)
    set i := t.hash idHash x with hidef
    set t' : ResTable ID :=
      { t with pTable := some (bs.set i (x :: bs.getD i [])),
               nInUse := t.nInUse + 1 } with ht'
    have heq : t.addCore idHash x = (0, t') := by
      unfold ResTable.addCore
      rw [hbsD]
      dsimp only
      rw [find_eq, if_neg hxb]
      rfl
    have hperm : ((bs.set i (x :: bs.getD i [])).flatten).Perm (x :: bs.flatten) :=
      flatten_set_cons_perm bs i hilt x
    have hxfl : x ∉ bs.flatten := by
      rwa [residents_eq_of_some hbs] at hx
    have hts' : t'.tableSize = t.tableSize := by
      rw [tableSize_of_some (t := t') rfl, tableSize_of_some hbs]
    have hcongr : ∀ y, t'.hash idHash y = t.hash idHash y := fun y =>
      hash_congr idHash t t' rfl rfl rfl y
    refine ⟨t', heq, ?_, ?_, rfl, ⟨_, rfl⟩, hts'⟩
    · refine inv_pack idHash (t := t') (bs.set i (x :: bs.getD i [])) rfl
        ?_ h2 h3 h4 h5 h6 ?_ ?_ ?_ ?_
      · rw [List.length_set]
        exact h1
      · intro j hj y hy
        rw [List.length_set] at hj
        rw [hcongr y]
        by_cases hij : i = j
        · subst hij
          rw [getD_set_self bs i hilt _ _] at hy
          rcases List.mem_cons.1 hy with rfl | hy2
          · rfl
          · exact h7 i hilt y hy2
        · rw [getD_set_ne bs i j hij _ _] at hy
          exact h7 j hj y hy
      · intro j hj hKj
        rw [List.length_set] at hj
        rw [hts'] at hKj
        rw [getD_set_ne bs i j (by omega) _ _]
        exact h8 j hj hKj
      · show t.nInUse + 1 = (bs.set i (x :: bs.getD i [])).flatten.length
        have hlen := hperm.length_eq
        simp only [List.length_cons] at hlen
        omega
      · refine hperm.symm.nodup ?_
        exact List.nodup_cons.2 ⟨hxfl, h10⟩
    · rw [residents_eq_of_some (t := t') rfl, residents_eq_of_some hbs]
      exact hperm

theorem add_spec_mem (idHash : ID → Nat) (ok : Bool) (t : ResTable ID)
    (hInv : Inv idHash t) (x : ID) (hx : x ∈ t.residents) :
    ∃ t', t.add idHash ok x = some (-1, t') ∧ Inv idHash t' ∧
      (t'.residents).Perm t.residents ∧ t'.nInUse = t.nInUse ∧
      (t.nInUse < t.tableSize → t' = t) := by
  cases hpt : t.pTable with
  | none =>
    have hini := hInv.1 hpt
    rw [hini] at hx
    cases hx
  | some bs =>
    unfold ResTable.add
    rw [hpt]
    by_cases hful : t.tableSize ≤ t.nInUse
    · simp only [if_pos hful]
      obtain ⟨t1, hsb, hInv1, hperm1, hni1, ⟨bs1, hbs1⟩⟩ :=
        splitBucket_spec idHash ok t hInv hpt
      rw [hsb]
      dsimp only
      have hbs1D : t1.pTable.getD [] = bs1 := by
        rw [hbs1]
        rfl
      have hx1 : x ∈ t1.residents := hperm1.mem_iff.2 hx
      have hxb1 : x ∈ bs1.getD (t1.hash idHash x) [] :=
        (mem_bucket_iff_mem_residents idHash hInv1 hbs1 x).2 hx1
      simp only [hbs1D, find_eq, if_pos hxb1]
      refine ⟨t1, by rfl, hInv1, hperm1, hni1, fun hlt => ?_⟩
      omega
    · simp only [if_neg hful]
      obtain ⟨hdup, _⟩ := addCore_spec idHash t hInv hpt x
      rw [hdup hx]
      exact ⟨t, rfl, hInv, List.Perm.refl _, rfl, fun _ => rfl⟩

theorem add_spec_not_mem (idHash : ID → Nat) (ok : Bool) (t : ResTable ID)
    (hInv : Inv idHash t) (x : ID) (hx : x ∉ t.residents)
    (halloc : ok = true ∨ ∃ bs : List (List ID), t.pTable = some bs) :
    ∃ t', t.add idHash ok x = some (0, t') ∧ Inv idHash t' ∧
      (t'.residents).Perm (x :: t.residents) ∧ t'.nInUse = t.nInUse + 1 := by
  cases hpt : t.pTable with
  | none =>
    have hok : ok = true := by
      rcases halloc with h | ⟨bs, hbs2⟩
      · exact h
      · rw [hpt] at hbs2
        cases hbs2
    subst hok
    have hini := hInv.1 hpt
    obtain ⟨t1, hgrow, hInv1, hres1, hni1, ⟨bs1, hbs1⟩⟩ :=
      sTSP_none_spec_true idHash t hInv hpt 10 (by norm_num)
    unfold ResTable.add
    rw [hpt, hgrow]
    dsimp only
    have hx1 : x ∉ t1.residents := by
      rw [hres1]
      exact List.not_mem_nil x
    obtain ⟨_, hins⟩ := addCore_spec idHash t1 hInv1 hbs1 x
    obtain ⟨t', heq, hInv', hperm', hni', _, _⟩ := hins hx1
    rw [heq]
    refine ⟨t', rfl, hInv', ?_, ?_⟩
    · refine hperm'.trans ?_
      rw [hres1]
      have hrest : t.residents = [] := by
        rw [hini]
        rfl
      rw [hrest]
    · have hnit : t.nInUse = 0 := by
        rw [hini]
        rfl
      omega
  | some bs =>
    unfold ResTable.add
    rw [hpt]
    by_cases hful : t.tableSize ≤ t.nInUse
    · simp only [if_pos hful]
      obtain ⟨t1, hsb, hInv1, hperm1, hni1, ⟨bs1, hbs1⟩⟩ :=
        splitBucket_spec idHash ok t hInv hpt
      rw [hsb]
      dsimp only
      have hbs1D : t1.pTable.getD [] = bs1 := by
        rw [hbs1]
        rfl
      have hx1 : x ∉ t1.residents := fun hc => hx (hperm1.mem_iff.1 hc)
      have hxb1 : x ∉ bs1.getD (t1.hash idHash x) [] := fun hc =>
        hx1 ((mem_bucket_iff_mem_residents idHash hInv1 hbs1 x).1 hc)
      simp only [hbs1D, find_eq, if_neg hxb1]
      obtain ⟨_, hins⟩ := addCore_spec idHash t1 hInv1 hbs1 x
      obtain ⟨t', heq, hInv', hperm', hni', _, _⟩ := hins hx1
      rw [heq]
      refine ⟨t', by rfl, hInv', ?_, by omega⟩
      exact hperm'.trans (hperm1.cons x)
    · simp only [if_neg hful]
      obtain ⟨_, hins⟩ := addCore_spec idHash t hInv hpt x
      obtain ⟨t', heq, hInv', hperm', hni', _, _⟩ := hins hx
      rw [heq]
      exact ⟨t', rfl, hInv', hperm', hni'⟩

/-! Characterization of `setTableSize` and reachability. -/

theorem sTSP_grow_some_clamp (t : ResTable ID) {bs : List (List ID)}
    (hbs : t.pTable = some bs) (n : Nat) (hlog : t.logBaseTwoTableSize < n) :
    t.setTableSizePrivate true n =
      some (true, { t with
        pTable := some (bs.take t.tableSize ++
          List.replicate (2 ^ (if n < 4 then 4 else n) - t.tableSize) []),
        logBaseTwoTableSize := if n < 4 then 4 else n }) := by
  unfold ResTable.setTableSizePrivate
  rw [if_neg (by omega)]
  simp [hbs, Nat.shiftLeft_eq]

theorem sTSP_frame (ok : Bool) (t : ResTable ID) {bs : List (List ID)}
    (hbs : t.pTable = some bs) (m : Nat) :
    ∃ b t', t.setTableSizePrivate ok m = some (b, t') ∧
      t'.hashIxMask = t.hashIxMask ∧ t'.hashIxSplitMask = t.hashIxSplitMask ∧
      t'.nextSplitIndex = t.nextSplitIndex ∧
      t'.nBitsHashIxSplitMask = t.nBitsHashIxSplitMask ∧
      t'.nInUse = t.nInUse ∧ t'.tableSize = t.tableSize ∧
      ∀ (idHash : ID → Nat) (x : ID), t'.hash idHash x = t.hash idHash x := by
  by_cases hm : m ≤ t.logBaseTwoTableSize
  · exact ⟨true, t, sTSP_noop ok t m hm, rfl, rfl, rfl, rfl, rfl, rfl,
      fun _ _ => rfl⟩
  · cases ok with
    | false =>
      exact ⟨false, t, sTSP_fail_some t hbs m (by omega), rfl, rfl, rfl, rfl, rfl,
        rfl, fun _ _ => rfl⟩
    | true =>
      refine ⟨true, _, sTSP_grow_some_clamp t hbs m (by omega), rfl, rfl, rfl,
        rfl, rfl, ?_, fun idHash x => hash_congr idHash t _ rfl rfl rfl x⟩
      rw [tableSize_of_some (t :=
        { t with
          pTable := some (bs.take t.tableSize ++
            List.replicate (2 ^ (if m < 4 then 4 else m) - t.tableSize) []),
          logBaseTwoTableSize := if m < 4 then 4 else m }) rfl,
        tableSize_of_some hbs]

theorem setTableSize_frame (ok : Bool) (t : ResTable ID) {bs : List (List ID)}
    (hbs : t.pTable = some bs) (n : Nat) :
    ∃ t', t.setTableSize ok n = some t' ∧
      t'.hashIxMask = t.hashIxMask ∧ t'.hashIxSplitMask = t.hashIxSplitMask ∧
      t'.nextSplitIndex = t.nextSplitIndex ∧
      t'.nBitsHashIxSplitMask = t.nBitsHashIxSplitMask ∧
      t'.nInUse = t.nInUse ∧ t'.tableSize = t.tableSize ∧
      ∀ (idHash : ID → Nat) (x : ID), t'.hash idHash x = t.hash idHash x := by
  unfold ResTable.setTableSize
  by_cases hn : n = 0
  · rw [if_pos hn]
    exact ⟨t, rfl, rfl, rfl, rfl, rfl, rfl, rfl, fun _ _ => rfl⟩
  · rw [if_neg hn]
    dsimp only
    obtain ⟨b, t', heq, hf⟩ := sTSP_frame ok t hbs
      (((List.range 32).find? fun nbits =>
        (n - 1) &&& (resTableBitMask 32 - resTableBitMask nbits) == 0).getD 32)
    rw [heq]
    exact ⟨t', rfl, hf⟩

theorem sTSP_inv_spec (idHash : ID → Nat) (ok : Bool) (t : ResTable ID)
    (hInv : Inv idHash t) (m : Nat) {b : Bool} {t' : ResTable ID}
    (heq : t.setTableSizePrivate ok m = some (b, t')) :
    Inv idHash t' ∧ t'.residents = t.residents := by
  cases hpt : t.pTable with
  | some bs =>
    obtain ⟨b2, t2, heq2, hInv2, hres2, _⟩ := sTSP_some_spec idHash ok t hInv hpt m
    rw [heq2] at heq
    obtain ⟨rfl, rfl⟩ : b2 = b ∧ t2 = t' := by
      have h := Option.some.inj heq
      exact ⟨congrArg Prod.fst h, congrArg Prod.snd h⟩
    exact ⟨hInv2, hres2⟩
  | none =>
    have hini := hInv.1 hpt
    by_cases hm : m ≤ t.logBaseTwoTableSize
    · rw [sTSP_noop ok t m hm] at heq
      obtain ⟨rfl, rfl⟩ : true = b ∧ t = t' := by
        have h := Option.some.inj heq
        exact ⟨congrArg Prod.fst h, congrArg Prod.snd h⟩
      exact ⟨hInv, rfl⟩
    · cases ok with
      | false =>
        rw [sTSP_fail_none t hpt m (by omega)] at heq
        cases heq
      | true =>
        obtain ⟨t2, heq2, hInv2, hres2, _, _⟩ :=
          sTSP_none_spec_true idHash t hInv hpt m (by omega)
        rw [heq2] at heq
        obtain ⟨rfl, rfl⟩ : true = b ∧ t2 = t' := by
          have h := Option.some.inj heq
          exact ⟨congrArg Prod.fst h, congrArg Prod.snd h⟩
        refine ⟨hInv2, ?_⟩
        rw [hres2, hini]
        rfl

theorem setTableSize_inv_spec (idHash : ID → Nat) (ok : Bool) (t : ResTable ID)
    (hInv : Inv idHash t) (n : Nat) {t' : ResTable ID}
    (heq : t.setTableSize ok n = some t') :
    Inv idHash t' ∧ t'.residents = t.residents := by
  unfold ResTable.setTableSize at heq
  by_cases hn : n = 0
  · rw [if_pos hn] at heq
    obtain rfl : t = t' := Option.some.inj heq
    exact ⟨hInv, rfl⟩
  · rw [if_neg hn] at heq
    dsimp only at heq
    rcases Option.map_eq_some'.1 heq with ⟨⟨b, t2⟩, heq2, hf⟩
    obtain rfl : t2 = t' := hf
    exact sTSP_inv_spec idHash ok t hInv _ heq2

theorem add_false_none_table (idHash : ID → Nat) (x : ID) :
    ResTable.add idHash false (ResTable.initial : ResTable ID) x = none := by
  unfold ResTable.add
  have hfail := sTSP_fail_none (ResTable.initial : ResTable ID) rfl 10
    (by show (0 : Nat) < 10; norm_num)
  rw [hfail]
  rfl

theorem reachable_inv (idHash : ID → Nat) {t : ResTable ID}
    (h : Reachable idHash t) : Inv idHash t := by
  induction h with
  | init => exact inv_initial idHash
  | @add t0 t' r ok x hre heq ih =>
    by_cases hx : x ∈ t0.residents
    · obtain ⟨t2, heq2, hInv2, _⟩ := add_spec_mem idHash ok t0 ih x hx
      rw [heq2] at heq
      injection heq with h
      injection h with h1 h2
      subst h2
      exact hInv2
    · have halloc : ok = true ∨ ∃ bs : List (List ID), t0.pTable = some bs := by
        cases ok with
        | true => exact Or.inl rfl
        | false =>
          cases hpt : t0.pTable with
          | some bs => exact Or.inr ⟨bs, rfl⟩
          | none =>
            have hini := ih.1 hpt
            rw [hini, add_false_none_table idHash x] at heq
            cases heq
      obtain ⟨t2, heq2, hInv2, _, _⟩ := add_spec_not_mem idHash ok t0 ih x hx halloc
      rw [heq2] at heq
      injection heq with h
      injection h with h1 h2
      subst h2
      exact hInv2
  | @remove t0 x hre ih =>
    by_cases hx : x ∈ t0.residents
    · obtain ⟨t2, heq2, hInv2, _⟩ := remove_mem idHash ih x hx
      rw [heq2]
      exact hInv2
    · rw [remove_not_mem idHash ih x hx]
      exact ih
  | @setTableSize t0 t' ok n hre heq ih =>
    exact (setTableSize_inv_spec idHash ok t0 ih n heq).1

theorem structInv_of_inv (idHash : ID → Nat) {t : ResTable ID}
    (hInv : Inv idHash t) : StructInv idHash t := by
  unfold StructInv
  cases hpt : t.pTable with
  | none =>
    have hini := hInv.1 hpt
    subst hini
    refine ⟨?_, ?_, ?_⟩
    · intro i hi x hx
      cases hi
    · exact List.nodup_nil
    · rfl
  | some bs =>
    obtain ⟨h1, h2, h3, h4, h5, h6, h7, h8, h9, h10⟩ := inv_unpack idHash hInv hpt
    simp only [hpt, Option.getD_some]
    refine ⟨h7, h10, ?_⟩
    show t.nInUse = (bs.map List.length).sum
    rw [h9, List.length_flatten]

/-! Replaying call sequences. -/

theorem runOps_fold_spec (idHash : ID → Nat) (ops : List (Op ID)) :
    ∀ (t : ResTable ID) (s : List ID), Inv idHash t → (t.residents).Perm s →
      Inv idHash (ops.foldl (applyOp idHash) t) ∧
      ((ops.foldl (applyOp idHash) t).residents).Perm (ops.foldl specStep s) := by
  induction ops with
  | nil =>
    intro t s hInv hperm
    exact ⟨hInv, hperm⟩
  | cons op rest ih =>
    intro t s hInv hperm
    simp only [List.foldl_cons]
    cases op with
    | add x =>
      by_cases hx : x ∈ t.residents
      · obtain ⟨t2, heq2, hInv2, hperm2, _⟩ := add_spec_mem idHash true t hInv x hx
        have happ : applyOp idHash t (Op.add x) = t2 := by
          unfold applyOp
          dsimp only
          rw [heq2]
          rfl
        have hstep : specStep s (Op.add x) = s := by
          unfold specStep
          dsimp only
          rw [if_pos (hperm.mem_iff.1 hx)]
        rw [happ, hstep]
        exact ih t2 s hInv2 (hperm2.trans hperm)
      · obtain ⟨t2, heq2, hInv2, hperm2, _⟩ :=
          add_spec_not_mem idHash true t hInv x hx (Or.inl rfl)
        have happ : applyOp idHash t (Op.add x) = t2 := by
          unfold applyOp
          dsimp only
          rw [heq2]
          rfl
        have hstep : specStep s (Op.add x) = x :: s := by
          unfold specStep
          dsimp only
          rw [if_neg (fun hc => hx (hperm.mem_iff.2 hc))]
        rw [happ, hstep]
        exact ih t2 (x :: s) hInv2 (hperm2.trans (hperm.cons x))
    | remove x =>
      by_cases hx : x ∈ t.residents
      · obtain ⟨t2, heq2, hInv2, hperm2, _⟩ := remove_mem idHash hInv x hx
        have happ : applyOp idHash t (Op.remove x) = t2 := by
          unfold applyOp
          dsimp only
          rw [heq2]
        rw [happ]
        exact ih t2 (s.erase x) hInv2 (hperm2.trans (List.Perm.erase x hperm))
      · have happ : applyOp idHash t (Op.remove x) = t := by
          unfold applyOp
          dsimp only
          rw [remove_not_mem idHash hInv x hx]
        have hstep : specStep s (Op.remove x) = s := by
          unfold specStep
          dsimp only
          rw [List.erase_of_not_mem (fun hc => hx (hperm.mem_iff.2 hc))]
        rw [happ, hstep]
        exact ih t s hInv hperm

/-- C1: for every sequence of add/remove operations with pairwise-distinct
added identifiers, `lookup (id)` returns the stored entry exactly while
the abstract replay of the sequence (`specResidentSet`: inserted by a
successful add and not yet erased by the matching remove) holds `id`, and
the null `NotFound` result at every other point. -/
theorem c1_lookup_between_add_and_remove (idHash : ID → Nat)
    (ops : List (Op ID)) (id : ID)
    (hdistinct : (ops.filterMap Op.addedId).Nodup) :
    ResTable.lookup idHash (runOps idHash ops) id =
      if id ∈ specResidentSet ops then some id else none := by
  obtain ⟨hInv, hperm⟩ := runOps_fold_spec idHash ops ResTable.initial []
    (inv_initial idHash) (List.Perm.refl _)
  have hlk := lookup_spec idHash hInv id
  show ResTable.lookup idHash (ops.foldl (applyOp idHash) ResTable.initial) id = _
  rw [hlk]
  unfold specResidentSet
  by_cases hm : id ∈ (ops.foldl (applyOp idHash) ResTable.initial).residents
  · rw [if_pos hm, if_pos (hperm.mem_iff.1 hm)]
  · rw [if_neg hm, if_neg (fun hc => hm (hperm.mem_iff.2 hc))]

theorem c1_lookup_between_add_and_remove_witness :
    ((([Op.add 5, Op.add 3, Op.remove 5] : List (Op Nat)).filterMap
      Op.addedId).Nodup) ∧
    ResTable.lookup natHash
        (runOps natHash [Op.add 5, Op.add 3, Op.remove 5]) 5 =
      (if 5 ∈ specResidentSet [Op.add 5, Op.add 3, Op.remove 5] then some 5
       else none) :=
  ⟨by decide,
   c1_lookup_between_add_and_remove natHash [Op.add 5, Op.add 3, Op.remove 5] 5
     (by decide)⟩

/-- C2: after every completed operation — any reachable table state, with
each growth allocation free to succeed or fail — the three structural
invariants hold: every resident entry sits in the bucket its identifier
hashes to under the current split state, no two resident entries compare
equal, and `numEntriesInstalled ()` equals the sum of the bucket-chain
lengths.  (`traverse` does not mutate the embedded state at all, so it
preserves the invariants trivially.) -/
theorem c2_structural_invariants (idHash : ID → Nat) (t : ResTable ID)
    (h : Reachable idHash t) : StructInv idHash t :=
  structInv_of_inv idHash (reachable_inv idHash h)

theorem c2_structural_invariants_witness :
    StructInv natHash (ResTable.initial : ResTable Nat) :=
  c2_structural_invariants natHash ResTable.initial Reachable.init

/-- C3: in every reachable allocated split state the masks satisfy
`fullMask = 2 * halfMask + 1`, and under that relation the bucket index
the table computes for raw hash `h` is `h &&& halfMask` when that value
is at least `nextSplitIndex`, and `h &&& fullMask` otherwise. -/
theorem c3_bucket_addressing (idHash : ID → Nat) (t : ResTable ID) (id : ID) :
    (Reachable idHash t → ∀ bs : List (List ID), t.pTable = some bs →
      t.hashIxSplitMask = 2 * t.hashIxMask + 1) ∧
    (t.hashIxSplitMask = 2 * t.hashIxMask + 1 →
      t.hash idHash id =
        if t.nextSplitIndex ≤ idHash id &&& t.hashIxMask then
          idHash id &&& t.hashIxMask
        else idHash id &&& (2 * t.hashIxMask + 1)) := by
  constructor
  · intro hre bs hbs
    obtain ⟨h1, h2, h3, h4, _, _, _, _, _, _⟩ :=
      inv_unpack idHash (reachable_inv idHash hre) hbs
    have hpowsplit : 2 ^ t.nBitsHashIxSplitMask =
        2 ^ (t.nBitsHashIxSplitMask - 1) * 2 := by
      conv_lhs => rw [show t.nBitsHashIxSplitMask = (t.nBitsHashIxSplitMask - 1) + 1 by omega]
      exact Nat.pow_succ 2 _
    have hpos : 0 < 2 ^ (t.nBitsHashIxSplitMask - 1) := Nat.pos_pow_of_pos _ (by norm_num)
    omega
  · intro hmask
    rw [hash_def, hmask]

theorem c3_bucket_addressing_witness :
    (exTable16.hashIxSplitMask = 2 * exTable16.hashIxMask + 1 →
      ResTable.hash natHash exTable16 9 =
        if exTable16.nextSplitIndex ≤ natHash 9 &&& exTable16.hashIxMask then
          natHash 9 &&& exTable16.hashIxMask
        else natHash 9 &&& (2 * exTable16.hashIxMask + 1)) ∧
    exTable16.hashIxSplitMask = 2 * exTable16.hashIxMask + 1 :=
  ⟨(c3_bucket_addressing natHash exTable16 9).2, by decide⟩

/-- C4 counterexample: on the 8-capacity table `exTableC4` holding ids
`8, 1, ..., 7` (id 8 in bucket 0), a duplicate `add 1` is reported with
status `-1` and leaves the count unchanged, but the resulting state is
NOT the state before the call: the triggered incremental split advanced
`nextSplitIndex` from 0 to 1 and moved entry 8 out of bucket 0 into
bucket 8 — refuting "causes no state change" and "every existing entry
remains resident in its bucket". -/
theorem c4_counterexample :
    (ResTable.add natHash true exTableC4 1).map Prod.fst = some (-1) ∧
    (ResTable.add natHash true exTableC4 1).map
      (fun p => p.2.numEntriesInstalled) =
        some exTableC4.numEntriesInstalled ∧
    (ResTable.add natHash true exTableC4 1).map Prod.snd ≠ some exTableC4 ∧
    (ResTable.add natHash true exTableC4 1).map
      (fun p => p.2.nextSplitIndex) = some 1 ∧
    exTableC4.nextSplitIndex = 0 ∧
    (exTableC4.pTable.getD []).getD 0 [] = [8] ∧
    (ResTable.add natHash true exTableC4 1).map
      (fun p => (p.2.pTable.getD []).getD 0 []) = some [] ∧
    (ResTable.add natHash true exTableC4 1).map
      (fun p => (p.2.pTable.getD []).getD 8 []) = some [8] := by
  decide

/-- C4 amended: `add ()` of an identifier already resident is reported as
a duplicate (status `-1`) and leaves `numEntriesInstalled ()` and the
multiset of resident entries unchanged; when the call finds the table
below capacity the state is exactly the state before the call, but a call
at capacity first performs one incremental split, which advances the
split state and may relocate entries of the split bucket. -/
theorem c4_duplicate_add_amended (idHash : ID → Nat) (t : ResTable ID)
    (hInv : Inv idHash t) (x : ID) (hx : x ∈ t.residents) :
    ∃ t', t.add idHash true x = some (-1, t') ∧
      t'.numEntriesInstalled = t.numEntriesInstalled ∧
      (t'.residents).Perm t.residents ∧ Inv idHash t' ∧
      (t.nInUse < t.tableSize → t' = t) := by
  obtain ⟨t', heq, hInv', hperm', hni', hframe⟩ :=
    add_spec_mem idHash true t hInv x hx
  exact ⟨t', heq, hni', hperm', hInv', hframe⟩

theorem c4_duplicate_add_amended_witness :
    Inv natHash exTableC4 ∧ 1 ∈ exTableC4.residents ∧
    (∃ t', ResTable.add natHash true exTableC4 1 = some (-1, t') ∧
      t'.numEntriesInstalled = exTableC4.numEntriesInstalled ∧
      (t'.residents).Perm exTableC4.residents ∧ Inv natHash t' ∧
      (exTableC4.nInUse < exTableC4.tableSize → t' = exTableC4)) :=
  ⟨by decide, by decide,
   c4_duplicate_add_amended natHash exTableC4 (by decide) 1 (by decide)⟩

/-- C5: a growth event — one incremental split (with its backing-array
doubling when due) or a `setTableSize` growth — never loses or
duplicates entries: the full traversal afterwards is a permutation of
the full traversal before. -/
theorem c5_growth_preserves_traversal (idHash : ID → Nat) (t : ResTable ID)
    (hInv : Inv idHash t) (bs : List (List ID)) (hbs : t.pTable = some bs) :
    (∀ t', t.splitBucket idHash true = some t' →
      (t'.traverseList).Perm t.traverseList) ∧
    (∀ n t', t.setTableSize true n = some t' →
      (t'.traverseList).Perm t.traverseList) := by
  constructor
  · intro t' heq
    obtain ⟨t2, heq2, hInv2, hperm2, _⟩ := splitBucket_spec idHash true t hInv hbs
    rw [heq2] at heq
    obtain rfl : t2 = t' := Option.some.inj heq
    rw [traverseList_eq_residents idHash hInv2, traverseList_eq_residents idHash hInv]
    exact hperm2
  · intro n t' heq
    obtain ⟨hInv', hres⟩ := setTableSize_inv_spec idHash true t hInv n heq
    rw [traverseList_eq_residents idHash hInv', traverseList_eq_residents idHash hInv,
      hres]

theorem c5_growth_preserves_traversal_witness :
    Inv natHash exTableC6 ∧ exTableC6.pTable = some exTableC6buckets ∧
    ((∀ t', exTableC6.splitBucket natHash true = some t' →
      (t'.traverseList).Perm exTableC6.traverseList) ∧
     (∀ n t', ResTable.setTableSize true exTableC6 n = some t' →
      (t'.traverseList).Perm exTableC6.traverseList)) :=
  ⟨by decide, by decide,
   c5_growth_preserves_traversal natHash exTableC6 (by decide) exTableC6buckets
     (by decide)⟩

/-- C9: on a freshly constructed table that has never allocated storage,
`lookup` and `remove` return the null `NotFound` result for every
identifier without a fault, the state is unchanged, and
`numEntriesInstalled ()` stays 0 after the remove. -/
theorem c9_unallocated_lookup_remove (idHash : ID → Nat) (id : ID) :
    ResTable.lookup idHash (ResTable.initial : ResTable ID) id = none ∧
    ResTable.remove idHash (ResTable.initial : ResTable ID) id =
      (none, ResTable.initial) ∧
    ((ResTable.remove idHash (ResTable.initial : ResTable ID) id).2
      ).numEntriesInstalled = 0 :=
  ⟨rfl, rfl, rfl⟩

/-- C10: `setTableSize` on a table that already has storage changes only
the backing bucket array: the addressing state (`hashIxMask`,
`hashIxSplitMask`, `nextSplitIndex`), every identifier's bucket index,
the logical capacity `tableSize ()` and the resident count are the same
after the call as before — the masks are initialized only by the very
first allocation. -/
theorem c10_setTableSize_preserves_addressing (idHash : ID → Nat) (ok : Bool)
    (t : ResTable ID) (bs : List (List ID)) (hbs : t.pTable = some bs)
    (n : Nat) :
    ∃ t', t.setTableSize ok n = some t' ∧
      t'.hashIxMask = t.hashIxMask ∧
      t'.hashIxSplitMask = t.hashIxSplitMask ∧
      t'.nextSplitIndex = t.nextSplitIndex ∧
      (∀ x : ID, t'.hash idHash x = t.hash idHash x) ∧
      t'.tableSize = t.tableSize ∧
      t'.numEntriesInstalled = t.numEntriesInstalled := by
  obtain ⟨t', heq, hm, hs, hn, hnb, hni, hts, hhash⟩ := setTableSize_frame ok t hbs n
  exact ⟨t', heq, hm, hs, hn, fun x => hhash idHash x, hts, hni⟩

theorem c10_setTableSize_preserves_addressing_witness :
    exTable16.pTable = some (List.replicate 16 []) ∧
    (∃ t', ResTable.setTableSize true exTable16 100 = some t' ∧
      t'.hashIxMask = exTable16.hashIxMask ∧
      t'.hashIxSplitMask = exTable16.hashIxSplitMask ∧
      t'.nextSplitIndex = exTable16.nextSplitIndex ∧
      (∀ x : Nat, t'.hash natHash x = exTable16.hash natHash x) ∧
      t'.tableSize = exTable16.tableSize ∧
      t'.numEntriesInstalled = exTable16.numEntriesInstalled) :=
  ⟨by decide,
   c10_setTableSize_preserves_addressing natHash true exTable16
     (List.replicate 16 []) (by decide) 100⟩

/-- C6: if the allocation for growth fails while the table already has
storage (`allocOk = false`, a doubling due, backing array too small), the
growth attempt is abandoned with the table unchanged, the capacity is
kept, and `add` still proceeds: a duplicate is reported with no state
change, a fresh identifier is inserted with the capacity untouched, and
the table remains fully usable (the invariant holds).  If the very first
allocation fails while the table has no storage, the failure propagates
to the caller (`none`). -/
theorem c6_allocation_failure (idHash : ID → Nat) (t : ResTable ID)
    (hInv : Inv idHash t) (bs : List (List ID)) (hbs : t.pTable = some bs)
    (hneed : t.hashIxMask < t.nextSplitIndex)
    (hlog : t.logBaseTwoTableSize < t.nBitsHashIxSplitMask + 1) :
    t.setTableSizePrivate false (t.nBitsHashIxSplitMask + 1) = some (false, t) ∧
    t.splitBucket idHash false = some t ∧
    (∀ x : ID, ∃ (s : Int) (t' : ResTable ID),
      t.add idHash false x = some (s, t') ∧ Inv idHash t' ∧
      t'.tableSize = t.tableSize ∧
      (x ∈ t.residents → s = -1 ∧ t' = t) ∧
      (x ∉ t.residents → s = 0 ∧ (t'.residents).Perm (x :: t.residents))) ∧
    (∀ (x : ID) (n : Nat),
      ResTable.add idHash false (ResTable.initial : ResTable ID) x = none ∧
      (0 < n →
        ResTable.setTableSizePrivate false (ResTable.initial : ResTable ID) n =
          none)) := by
  have hfail := sTSP_fail_some t hbs (t.nBitsHashIxSplitMask + 1) hlog
  have hsb : t.splitBucket idHash false = some t := by
    unfold ResTable.splitBucket
    rw [if_pos hneed, hfail]
    rfl
  have hbsD : t.pTable.getD [] = bs := by
    rw [hbs]
    rfl
  refine ⟨hfail, hsb, ?_, ?_⟩
  · intro x
    obtain ⟨hdup, hins⟩ := addCore_spec idHash t hInv hbs x
    by_cases hx : x ∈ t.residents
    · have hxb : x ∈ bs.getD (t.hash idHash x) [] :=
        (mem_bucket_iff_mem_residents idHash hInv hbs x).2 hx
      have heqadd : t.add idHash false x = some (-1, t) := by
        unfold ResTable.add
        rw [hbs]
        by_cases hful : t.tableSize ≤ t.nInUse
        · simp only [if_pos hful]
          rw [hsb]
          dsimp only
          simp only [hbsD, find_eq, if_pos hxb]
          rfl
        · simp only [if_neg hful]
          rw [hdup hx]
      exact ⟨-1, t, heqadd, hInv, rfl, fun _ => ⟨rfl, rfl⟩,
        fun hc => absurd hx hc⟩
    · have hxb : x ∉ bs.getD (t.hash idHash x) [] := fun hc =>
        hx ((mem_bucket_iff_mem_residents idHash hInv hbs x).1 hc)
      obtain ⟨t', heq, hInv', hperm', hni', hsome', hts'⟩ := hins hx
      have heqadd : t.add idHash false x = some (0, t') := by
        unfold ResTable.add
        rw [hbs]
        by_cases hful : t.tableSize ≤ t.nInUse
        · simp only [if_pos hful]
          rw [hsb]
          dsimp only
          simp only [hbsD, find_eq, if_neg hxb]
          rw [heq]
          rfl
        · simp only [if_neg hful]
          rw [heq]
      exact ⟨0, t', heqadd, hInv', hts', fun hc => absurd hc hx,
        fun _ => ⟨rfl, hperm'⟩⟩
  · intro x n
    exact ⟨add_false_none_table idHash x,
      fun hn => sTSP_fail_none _ rfl n (by show (0 : Nat) < n; omega)⟩

theorem c6_allocation_failure_witness :
    (Inv natHash exTableC6 ∧ exTableC6.pTable = some exTableC6buckets ∧
      exTableC6.hashIxMask < exTableC6.nextSplitIndex ∧
      exTableC6.logBaseTwoTableSize < exTableC6.nBitsHashIxSplitMask + 1) ∧
    (ResTable.setTableSizePrivate false exTableC6
        (exTableC6.nBitsHashIxSplitMask + 1) = some (false, exTableC6) ∧
      ResTable.splitBucket natHash false exTableC6 = some exTableC6 ∧
      (∀ x : Nat, ∃ (s : Int) (t' : ResTable Nat),
        ResTable.add natHash false exTableC6 x = some (s, t') ∧
        Inv natHash t' ∧ t'.tableSize = exTableC6.tableSize ∧
        (x ∈ exTableC6.residents → s = -1 ∧ t' = exTableC6) ∧
        (x ∉ exTableC6.residents → s = 0 ∧
          (t'.residents).Perm (x :: exTableC6.residents))) ∧
      (∀ (x : Nat) (n : Nat),
        ResTable.add natHash false (ResTable.initial : ResTable Nat) x = none ∧
        (0 < n →
          ResTable.setTableSizePrivate false (ResTable.initial : ResTable Nat) n =
            none))) :=
  ⟨⟨by decide, by decide, by decide, by decide⟩,
   c6_allocation_failure natHash exTableC6 (by decide) exTableC6buckets
     (by decide) (by decide) (by decide)⟩

/-! The chronological-id table. -/

theorem chron_add_step (fuel : Nat) :
    ∀ (c : ChronIntIdResTable) {id : Nat} {c' : ChronIntIdResTable},
      Inv chronIntIdHash c.tbl →
      ChronIntIdResTable.add fuel c = some (id, c') →
      Inv chronIntIdHash c'.tbl ∧ id ∉ c.tbl.residents ∧
        (c'.tbl.residents).Perm (id :: c.tbl.residents) := by
  induction fuel with
  | zero =>
    intro c id c' hInv heq
    cases heq
  | succ f ih =>
    intro c id c' hInv heq
    unfold ChronIntIdResTable.add at heq
    dsimp only at heq
    by_cases hx : c.allocId ∈ c.tbl.residents
    · obtain ⟨t2, heq2, hInv2, hperm2, _⟩ :=
        add_spec_mem chronIntIdHash true c.tbl hInv c.allocId hx
      rw [heq2] at heq
      dsimp only at heq
      rw [if_neg (by norm_num : ¬(-1 : Int) = 0)] at heq
      obtain ⟨hInv', hid', hperm'⟩ :=
        ih ⟨t2, (c.allocId + 1) % 2 ^ 32⟩ hInv2 heq
      refine ⟨hInv', fun hc => hid' (hperm2.mem_iff.2 hc), ?_⟩
      exact hperm'.trans ((hperm2.cons id))
    · obtain ⟨t2, heq2, hInv2, hperm2, _⟩ :=
        add_spec_not_mem chronIntIdHash true c.tbl hInv c.allocId hx (Or.inl rfl)
      rw [heq2] at heq
      dsimp only at heq
      rw [if_pos rfl] at heq
      injection heq with h
      injection h with h1 h2
      subst h1
      subst h2
      exact ⟨hInv2, hx, hperm2⟩

theorem chron_addN_fresh (fuel : Nat) (hfuel : 1 ≤ fuel) :
    ∀ (N a : Nat) (t : ResTable Nat), Inv chronIntIdHash t →
      (∀ y ∈ t.residents, y < a) → a + N ≤ 2 ^ 32 →
      ∃ c', ChronIntIdResTable.addN fuel N ⟨t, a⟩ =
          some (List.range' a N, c') ∧
        Inv chronIntIdHash c'.tbl ∧
        (∀ y ∈ c'.tbl.residents, y < a + N) := by
  intro N
  induction N with
  | zero =>
    intro a t hInv hbound hrange
    exact ⟨⟨t, a⟩, rfl, hInv, by simpa using hbound⟩
  | succ N ih =>
    intro a t hInv hbound hrange
    have hxa : a ∉ t.residents := fun hc => by
      have := hbound a hc
      omega
    obtain ⟨t2, heq2, hInv2, hperm2, _⟩ :=
      add_spec_not_mem chronIntIdHash true t hInv a hxa (Or.inl rfl)
    have hbound2 : ∀ y ∈ t2.residents, y < a + 1 := by
      intro y hy
      rcases List.mem_cons.1 (hperm2.mem_iff.1 hy) with rfl | hy2
      · omega
      · have := hbound y hy2
        omega
    have hstep : ChronIntIdResTable.add fuel ⟨t, a⟩ =
        some (a, ⟨t2, (a + 1) % 2 ^ 32⟩) := by
      cases fuel with
      | zero => omega
      | succ f =>
        unfold ChronIntIdResTable.add
        dsimp only
        rw [heq2]
        dsimp only
        rw [if_pos rfl]
    rcases Nat.eq_zero_or_pos N with rfl | hN
    · refine ⟨⟨t2, (a + 1) % 2 ^ 32⟩, ?_, hInv2, by simpa using hbound2⟩
      unfold ChronIntIdResTable.addN
      rw [hstep]
      rfl
    · have hmod : (a + 1) % 2 ^ 32 = a + 1 := Nat.mod_eq_of_lt (by omega)
      obtain ⟨c', heqN, hInv', hbound'⟩ :=
        ih (a + 1) t2 hInv2 hbound2 (by omega)
      refine ⟨c', ?_, hInv', by intro y hy; have := hbound' y hy; omega⟩
      unfold ChronIntIdResTable.addN
      rw [hstep]
      dsimp only
      rw [hmod, heqN]
      dsimp only
      rw [List.range'_succ]

/-- C7: `N` sequential `add` calls on a fresh chronological-id table
(`N` within the 32-bit id range) assign exactly the ids `1, 2, ..., N` —
pairwise distinct and strictly increasing; and every completed
chronological `add`, from any valid state — including after the 32-bit
counter wraps — assigns an id that was not resident (never silently
overwriting an entry, probing forward past collisions) and keeps every
previously resident entry. -/
theorem c7_chronological_ids (N fuel : Nat) (hN : N ≤ 2 ^ 32 - 1)
    (hfuel : 1 ≤ fuel) :
    (∃ c', ChronIntIdResTable.addN fuel N ChronIntIdResTable.initial =
        some (List.range' 1 N, c') ∧ Inv chronIntIdHash c'.tbl) ∧
    (List.range' 1 N).Pairwise (fun x y => x < y) ∧
    (∀ (f : Nat) (c : ChronIntIdResTable) (id : Nat) (c' : ChronIntIdResTable),
      Inv chronIntIdHash c.tbl → ChronIntIdResTable.add f c = some (id, c') →
      id ∉ c.tbl.residents ∧ (c'.tbl.residents).Perm (id :: c.tbl.residents) ∧
        Inv chronIntIdHash c'.tbl) := by
  refine ⟨?_, List.pairwise_lt_range' 1 N, ?_⟩
  · obtain ⟨c', heq, hInv', _⟩ := chron_addN_fresh fuel hfuel N 1 ResTable.initial
      (inv_initial chronIntIdHash)
      (by
        intro y hy
        simp [ResTable.residents, ResTable.initial] at hy)
      (by omega)
    exact ⟨c', heq, hInv'⟩
  · intro f c id c' hInv heq
    obtain ⟨h1, h2, h3⟩ := chron_add_step f c hInv heq
    exact ⟨h2, h3, h1⟩

theorem c7_chronological_ids_witness :
    ((3 : Nat) ≤ 2 ^ 32 - 1 ∧ (1 : Nat) ≤ 1) ∧
    ((∃ c', ChronIntIdResTable.addN 1 3 ChronIntIdResTable.initial =
        some (List.range' 1 3, c') ∧ Inv chronIntIdHash c'.tbl) ∧
      (List.range' 1 3).Pairwise (fun x y => x < y) ∧
      (∀ (f : Nat) (c : ChronIntIdResTable) (id : Nat)
          (c' : ChronIntIdResTable),
        Inv chronIntIdHash c.tbl →
        ChronIntIdResTable.add f c = some (id, c') →
        id ∉ c.tbl.residents ∧
          (c'.tbl.residents).Perm (id :: c.tbl.residents) ∧
          Inv chronIntIdHash c'.tbl)) :=
  ⟨⟨by norm_num, le_refl 1⟩, c7_chronological_ids 3 1 (by norm_num) (le_refl 1)⟩

/-- C8: string identifiers hash and compare by byte content, not by
ownership mode: a copied identifier and a referencing identifier over the
same bytes hash to the same index and compare equal, and two string
identifiers are never equal when either has no backing string. -/
theorem c8_stringId_mode_invariance (s : List Nat) (a b : StringId)
    (hnull : a.pStr = none ∨ b.pStr = none) :
    (StringId.make (some s) AllocationType.copyString).hash =
      (StringId.make (some s) AllocationType.refString).hash ∧
    StringId.beq (StringId.make (some s) AllocationType.copyString)
      (StringId.make (some s) AllocationType.refString) = true ∧
    StringId.beq a b = false := by
  refine ⟨rfl, by simp [StringId.make, StringId.beq], ?_⟩
  rcases hnull with h | h
  · cases hb : b.pStr with
    | none =>
      unfold StringId.beq
      rw [h, hb]
    | some y =>
      unfold StringId.beq
      rw [h, hb]
  · cases ha : a.pStr with
    | none =>
      unfold StringId.beq
      rw [ha, h]
    | some y =>
      unfold StringId.beq
      rw [ha, h]

theorem c8_stringId_mode_invariance_witness :
    ((StringId.make none AllocationType.refString).pStr = none ∨
      (StringId.make (some [67]) AllocationType.refString).pStr = none) ∧
    ((StringId.make (some [65, 66]) AllocationType.copyString).hash =
      (StringId.make (some [65, 66]) AllocationType.refString).hash ∧
    StringId.beq (StringId.make (some [65, 66]) AllocationType.copyString)
      (StringId.make (some [65, 66]) AllocationType.refString) = true ∧
    StringId.beq (StringId.make none AllocationType.refString)
      (StringId.make (some [67]) AllocationType.refString) = false) :=
  ⟨Or.inl rfl,
   c8_stringId_mode_invariance [65, 66]
     (StringId.make none AllocationType.refString)
     (StringId.make (some [67]) AllocationType.refString) (Or.inl rfl)⟩

end ResourceLib
